import Mathlib

/-!
Shallow embedding of the GitOps-Manager leaf tool functions
(`src/backend/tools/auto_gitops_tools.py` and `initialize_shared_memory` of
`src/backend/main.py`) together with a model of the parts of Python's `json`
module that those functions use (`json.dumps`, `json.dump`, `json.load`,
`json.loads`).

Modelling conventions:
* JSON numbers are modelled as integers (the store and the tools only ever
  move opaque JSON values around; no claim depends on float formatting).
* Python strings are Lean `String`s.  `json.dumps` is modelled with
  `ensure_ascii=False`-style escaping (characters above `0x7e` are written
  literally rather than as `\uXXXX`); this changes only the concrete bytes of
  the output, never whether the output is valid JSON nor the value it parses
  to.
* The backing file of the shared-memory store is explicit state:
  `FileState.absent` (no file on disk) or `FileState.content s` (a file whose
  text is `s`).  Each tool takes the state in and hands the new state back.
* Raising a Python exception is modelled by `Except.error`.
-/

namespace GitOps

/-- A JSON value (numbers restricted to integers). -/
inductive Json where
  | null
  | bool (b : Bool)
  | num (n : Int)
  | str (s : String)
  | arr (elems : List Json)
  | obj (members : List (String × Json))
deriving Repr

mutual

/-- Boolean equality on JSON values. -/
def jsonBeq : Json → Json → Bool
  | .null, .null => true
  | .bool a, .bool b => a == b
  | .num a, .num b => a == b
  | .str a, .str b => a == b
  | .arr a, .arr b => jsonBeqList a b
  | .obj a, .obj b => jsonBeqMembers a b
  | _, _ => false

/-- Boolean equality on lists of JSON values. -/
def jsonBeqList : List Json → List Json → Bool
  | [], [] => true
  | x :: xs, y :: ys => jsonBeq x y && jsonBeqList xs ys
  | _, _ => false

/-- Boolean equality on lists of JSON object members. -/
def jsonBeqMembers : List (String × Json) → List (String × Json) → Bool
  | [], [] => true
  | (k, v) :: xs, (k', v') :: ys => k == k' && jsonBeq v v' && jsonBeqMembers xs ys
  | _, _ => false

end

mutual

theorem jsonBeq_iff : ∀ a b : Json, jsonBeq a b = true ↔ a = b
  | .null, .null => by simp [jsonBeq]
  | .bool a, .bool b => by simp [jsonBeq]
  | .num a, .num b => by simp [jsonBeq]
  | .str a, .str b => by simp [jsonBeq]
  | .arr a, .arr b => by simp [jsonBeq, jsonBeqList_iff a b]
  | .obj a, .obj b => by simp [jsonBeq, jsonBeqMembers_iff a b]
  | .null, .bool _ | .null, .num _ | .null, .str _ | .null, .arr _ | .null, .obj _
  | .bool _, .null | .bool _, .num _ | .bool _, .str _ | .bool _, .arr _ | .bool _, .obj _
  | .num _, .null | .num _, .bool _ | .num _, .str _ | .num _, .arr _ | .num _, .obj _
  | .str _, .null | .str _, .bool _ | .str _, .num _ | .str _, .arr _ | .str _, .obj _
  | .arr _, .null | .arr _, .bool _ | .arr _, .num _ | .arr _, .str _ | .arr _, .obj _
  | .obj _, .null | .obj _, .bool _ | .obj _, .num _ | .obj _, .str _ | .obj _, .arr _ =>
      by simp [jsonBeq]

theorem jsonBeqList_iff : ∀ a b : List Json, jsonBeqList a b = true ↔ a = b
  | [], [] => by simp [jsonBeqList]
  | x :: xs, y :: ys => by
      simp [jsonBeqList, jsonBeq_iff x y, jsonBeqList_iff xs ys]
  | [], _ :: _ => by simp [jsonBeqList]
  | _ :: _, [] => by simp [jsonBeqList]

theorem jsonBeqMembers_iff :
    ∀ a b : List (String × Json), jsonBeqMembers a b = true ↔ a = b
  | [], [] => by simp [jsonBeqMembers]
  | (k, v) :: xs, (k', v') :: ys => by
      simp only [jsonBeqMembers, Bool.and_eq_true, beq_iff_eq, jsonBeq_iff v v',
        jsonBeqMembers_iff xs ys, List.cons.injEq, Prod.mk.injEq]
      try tauto
  | [], _ :: _ => by simp [jsonBeqMembers]
  | _ :: _, [] => by simp [jsonBeqMembers]

end

instance : DecidableEq Json := fun a b =>
  decidable_of_iff (jsonBeq a b = true) (jsonBeq_iff a b)

/-- `d.get(k)` on a Python dict parsed from JSON: the value of the first
binding of `k`, and `None` (JSON null) when `k` is absent. -/
def dictGet (kvs : List (String × Json)) (k : String) : Json :=
  match kvs.find? (fun p => p.1 == k) with
  | some p => p.2
  | none => Json.null

/-- `d[k] = v` on a Python dict: replace the value of an existing key in
place, otherwise append the new binding at the end (CPython insertion
order). -/
def dictSet (kvs : List (String × Json)) (k : String) (v : Json) :
    List (String × Json) :=
  match kvs with
  | [] => [(k, v)]
  | (k', v') :: rest =>
      if k' == k then (k, v) :: rest else (k', v') :: dictSet rest k v

/-- The keys of an association list, in order. -/
def keysOf (kvs : List (String × Json)) : List String := kvs.map Prod.fst

/-- No string occurs twice in the list (executable). -/
def nodupKeys : List String → Bool
  | [] => true
  | k :: rest => (!rest.contains k) && nodupKeys rest

mutual

/-- Well-formedness of a JSON value as a Python object: every object level
has pairwise-distinct keys (a Python dict cannot hold a duplicate key). -/
def wfJson : Json → Bool
  | .arr xs => wfList xs
  | .obj kvs => nodupKeys (keysOf kvs) && wfMembers kvs
  | _ => true

/-- All elements of the list are well formed. -/
def wfList : List Json → Bool
  | [] => true
  | x :: xs => wfJson x && wfList xs

/-- All member values are well formed. -/
def wfMembers : List (String × Json) → Bool
  | [] => true
  | m :: rest => wfJson m.2 && wfMembers rest

end

/-- The character of a decimal digit. -/
def digitChar (d : Nat) : Char :=
  if d = 0 then '0' else if d = 1 then '1' else if d = 2 then '2'
  else if d = 3 then '3' else if d = 4 then '4' else if d = 5 then '5'
  else if d = 6 then '6' else if d = 7 then '7' else if d = 8 then '8'
  else '9'

/-- Numeric value of a decimal digit character. -/
def digitVal (c : Char) : Nat := c.toNat - 48

/-- Decimal digits of `n`, most significant first; fuel-driven so that the
kernel can evaluate it (`fuel > n` suffices). -/
def natDigitsAux : Nat → Nat → List Char
  | 0, _ => []
  | fuel + 1, n =>
      if n < 10 then [digitChar n]
      else natDigitsAux fuel (n / 10) ++ [digitChar (n % 10)]

/-- Decimal digits of `n`, most significant first. -/
def natDigits (n : Nat) : List Char := natDigitsAux (n + 1) n

/-- Value of a string of decimal digits (most significant first). -/
def digitsVal (cs : List Char) : Nat := cs.foldl (fun a c => a * 10 + digitVal c) 0

theorem digitVal_digitChar {d : Nat} (h : d < 10) : digitVal (digitChar d) = d := by
  interval_cases d <;> decide

theorem isDigit_digitChar {d : Nat} (h : d < 10) : (digitChar d).isDigit = true := by
  interval_cases d <;> decide

theorem digitsVal_append (cs ds : List Char) :
    digitsVal (cs ++ ds) = ds.foldl (fun a c => a * 10 + digitVal c) (digitsVal cs) := by
  simp [digitsVal, List.foldl_append]

theorem natDigitsAux_fuel {fuel₁ fuel₂ n : Nat} (h₁ : n < fuel₁) (h₂ : n < fuel₂) :
    natDigitsAux fuel₁ n = natDigitsAux fuel₂ n := by
  induction n using Nat.strong_induction_on generalizing fuel₁ fuel₂ with
  | _ n ih =>
    cases fuel₁ with
    | zero => omega
    | succ f₁ =>
      cases fuel₂ with
      | zero => omega
      | succ f₂ =>
        simp only [natDigitsAux]
        split
        · rfl
        · exact congrArg (fun l => l ++ [digitChar (n % 10)])
            (ih (n / 10) (by omega) (by omega) (by omega))

theorem natDigits_eq_aux {fuel n : Nat} (h : n < fuel) :
    natDigits n = natDigitsAux fuel n :=
  natDigitsAux_fuel (by omega) h

/-- Unfolding equation for `natDigits` without fuel. -/
theorem natDigits_eq (n : Nat) :
    natDigits n = if n < 10 then [digitChar n]
      else natDigits (n / 10) ++ [digitChar (n % 10)] := by
  conv_lhs => rw [natDigits]
  simp only [natDigitsAux]
  split
  · rfl
  · rw [@natDigits_eq_aux n (n / 10) (by omega)]

theorem digitsVal_natDigits (n : Nat) : digitsVal (natDigits n) = n := by
  induction n using Nat.strong_induction_on with
  | _ n ih =>
    rw [natDigits_eq]
    split
    · simp [digitsVal, digitVal_digitChar, *]
    · rw [digitsVal_append, ih (n / 10) (by omega)]
      simp [digitVal_digitChar (Nat.mod_lt n (by omega))]
      omega

theorem natDigits_injective : Function.Injective natDigits := by
  intro a b h
  have := digitsVal_natDigits a
  rw [h, digitsVal_natDigits] at this
  omega

theorem natDigits_ne_nil (n : Nat) : natDigits n ≠ [] := by
  rw [natDigits_eq]
  split <;> simp

theorem natDigits_all_digit (n : Nat) : ∀ c ∈ natDigits n, c.isDigit = true := by
  induction n using Nat.strong_induction_on with
  | _ n ih =>
    rw [natDigits_eq]
    split
    · simpa using isDigit_digitChar ‹n < 10›
    · intro c hc
      rcases List.mem_append.1 hc with h | h
      · exact ih (n / 10) (by omega) c h
      · simp only [List.mem_singleton] at h
        subst h
        exact isDigit_digitChar (Nat.mod_lt n (by omega))

/-- Decimal rendering of an integer as Python's `repr`/`json.dumps` writes it. -/
def intChars (n : Int) : List Char :=
  if n < 0 then '-' :: natDigits n.natAbs else natDigits n.toNat

/-- Lower-case hexadecimal digit character. -/
def hexDigitChar (d : Nat) : Char :=
  if d < 10 then digitChar d
  else if d = 10 then 'a' else if d = 11 then 'b' else if d = 12 then 'c'
  else if d = 13 then 'd' else if d = 14 then 'e' else 'f'

/-- How `json.dumps` writes one character inside a string literal: `"` and `\`
are escaped, the common control characters get their short escapes, any other
control character becomes `\u00XX`, and everything else is written
literally. -/
def escapeChar (c : Char) : List Char :=
  if c = '"' then ['\\', '"']
  else if c = '\\' then ['\\', '\\']
  else if c = '\n' then ['\\', 'n']
  else if c = '\t' then ['\\', 't']
  else if c = '\r' then ['\\', 'r']
  else if c.toNat = 8 then ['\\', 'b']
  else if c.toNat = 12 then ['\\', 'f']
  else if c.toNat < 32 then
    ['\\', 'u', '0', '0', hexDigitChar (c.toNat / 16), hexDigitChar (c.toNat % 16)]
  else [c]

/-- Escape every character of a string body. -/
def escapeStr : List Char → List Char
  | [] => []
  | c :: cs => escapeChar c ++ escapeStr cs

/-- A JSON string literal: quote, escaped body, quote. -/
def strLit (s : String) : List Char := '"' :: (escapeStr s.data ++ ['"'])

mutual

/-- `json.dumps(j)` with Python's default separators `", "` and `": "`. -/
def dumpJson : Json → List Char
  | .null => 'n' :: "ull".data
  | .bool true => 't' :: "rue".data
  | .bool false => 'f' :: "alse".data
  | .num n => intChars n
  | .str s => strLit s
  | .arr [] => ['[', ']']
  | .arr (x :: xs) => '[' :: (dumpJson x ++ dumpArrTail xs)
  | .obj [] => ['{', '}']
  | .obj (m :: ms) => '{' :: (strLit m.1 ++ ':' :: ' ' :: (dumpJson m.2 ++ dumpObjTail ms))

/-- The remaining elements of a non-empty array, and the closing bracket. -/
def dumpArrTail : List Json → List Char
  | [] => [']']
  | x :: xs => ',' :: ' ' :: (dumpJson x ++ dumpArrTail xs)

/-- The remaining members of a non-empty object, and the closing brace. -/
def dumpObjTail : List (String × Json) → List Char
  | [] => ['}']
  | m :: ms => ',' :: ' ' :: (strLit m.1 ++ ':' :: ' ' :: (dumpJson m.2 ++ dumpObjTail ms))

end

/-- `d` spaces of indentation. -/
def pad (d : Nat) : List Char := List.replicate d ' '

mutual

/-- `json.dump(j, f, indent=2)` at indentation level `d` (with `indent` set,
Python's item separator defaults to `","` and the key separator stays
`": "`). -/
def dumpInd : Nat → Json → List Char
  | _, .null => 'n' :: "ull".data
  | _, .bool true => 't' :: "rue".data
  | _, .bool false => 'f' :: "alse".data
  | _, .num n => intChars n
  | _, .str s => strLit s
  | _, .arr [] => ['[', ']']
  | d, .arr (x :: xs) =>
      '[' :: '\n' :: (pad (d + 2) ++ (dumpInd (d + 2) x ++ dumpIndArrTail d xs))
  | _, .obj [] => ['{', '}']
  | d, .obj (m :: ms) =>
      '{' :: '\n' :: (pad (d + 2) ++
        (strLit m.1 ++ ':' :: ' ' :: (dumpInd (d + 2) m.2 ++ dumpIndObjTail d ms)))

/-- Remaining elements of a non-empty indented array, then newline, outer
padding and the closing bracket. -/
def dumpIndArrTail : Nat → List Json → List Char
  | d, [] => '\n' :: (pad d ++ [']'])
  | d, x :: xs =>
      ',' :: '\n' :: (pad (d + 2) ++ (dumpInd (d + 2) x ++ dumpIndArrTail d xs))

/-- Remaining members of a non-empty indented object, then newline, outer
padding and the closing brace. -/
def dumpIndObjTail : Nat → List (String × Json) → List Char
  | d, [] => '\n' :: (pad d ++ ['}'])
  | d, m :: ms =>
      ',' :: '\n' :: (pad (d + 2) ++
        (strLit m.1 ++ ':' :: ' ' :: (dumpInd (d + 2) m.2 ++ dumpIndObjTail d ms)))

end

/-- `json.dumps(j)` as a Lean string. -/
def json_dumps (j : Json) : String := String.mk (dumpJson j)

/-- `json.dump(j, f, indent=2)`: the text written to the file. -/
def json_dumps_indent2 (j : Json) : String := String.mk (dumpInd 0 j)

/-! ### A verified model of `json.loads` -/

/-- Lexical tokens of JSON. -/
inductive Tok where
  | lbrace | rbrace | lbrack | rbrack | colon | comma
  | str (s : String)
  | num (n : Int)
  | tru | fls | nul
deriving Repr, DecidableEq

/-- The JSON whitespace characters (also the ones `json.loads` skips). -/
def isWsChar (c : Char) : Bool :=
  c == ' ' || c == '\t' || c == '\n' || c == '\r'

/-- Drop leading whitespace. -/
def skipWs : List Char → List Char
  | [] => []
  | c :: cs => if isWsChar c then skipWs cs else c :: cs

/-- Value of a hexadecimal digit character. -/
def hexVal (c : Char) : Option Nat :=
  if c.isDigit then some (c.toNat - 48)
  else if 'a' ≤ c ∧ c ≤ 'f' then some (c.toNat - 87)
  else if 'A' ≤ c ∧ c ≤ 'F' then some (c.toNat - 55)
  else none

/-- Scan a string literal body after the opening quote: returns the decoded
characters and the input after the closing quote.  Unescaped control
characters, bad escapes, invalid `\uXXXX` code points and a missing closing
quote are rejected. -/
def lexStr : List Char → Option (List Char × List Char)
  | [] => none
  | c :: rest =>
      if c = '"' then some ([], rest)
      else if c = '\\' then
        match rest with
        | [] => none
        | e :: rest' =>
            if e = '"' then (fun p => ('"' :: p.1, p.2)) <$> lexStr rest'
            else if e = '\\' then (fun p => ('\\' :: p.1, p.2)) <$> lexStr rest'
            else if e = '/' then (fun p => ('/' :: p.1, p.2)) <$> lexStr rest'
            else if e = 'n' then (fun p => ('\n' :: p.1, p.2)) <$> lexStr rest'
            else if e = 't' then (fun p => ('\t' :: p.1, p.2)) <$> lexStr rest'
            else if e = 'r' then (fun p => ('\r' :: p.1, p.2)) <$> lexStr rest'
            else if e = 'b' then (fun p => (Char.ofNat 8 :: p.1, p.2)) <$> lexStr rest'
            else if e = 'f' then (fun p => (Char.ofNat 12 :: p.1, p.2)) <$> lexStr rest'
            else if e = 'u' then
              match rest' with
              | h₁ :: h₂ :: h₃ :: h₄ :: rest'' =>
                  match hexVal h₁, hexVal h₂, hexVal h₃, hexVal h₄ with
                  | some a, some b, some c', some d =>
                      if Nat.isValidChar (((a * 16 + b) * 16 + c') * 16 + d) then
                        (fun p => (Char.ofNat (((a * 16 + b) * 16 + c') * 16 + d) :: p.1, p.2))
                          <$> lexStr rest''
                      else none
                  | _, _, _, _ => none
              | _ => none
            else none
      else if c.toNat < 32 then none
      else (fun p => (c :: p.1, p.2)) <$> lexStr rest

/-- One token starting at the non-whitespace character `c` (with `rest` the
input after `c`): the token and the remaining input, or `none` on a lexical
error. -/
def nextTokCore (c : Char) (rest : List Char) : Option (Tok × List Char) :=
  if c = '{' then some (.lbrace, rest)
  else if c = '}' then some (.rbrace, rest)
  else if c = '[' then some (.lbrack, rest)
  else if c = ']' then some (.rbrack, rest)
  else if c = ':' then some (.colon, rest)
  else if c = ',' then some (.comma, rest)
  else if c = '"' then (fun p => (Tok.str (String.mk p.1), p.2)) <$> lexStr rest
  else if c = '-' then
    match rest.takeWhile Char.isDigit with
    | [] => none
    | ds => some (.num (-(digitsVal ds : Int)), rest.dropWhile Char.isDigit)
  else if c.isDigit then
    some (.num (digitsVal (c :: rest.takeWhile Char.isDigit) : Int),
      rest.dropWhile Char.isDigit)
  else if c = 't' then
    match rest with
    | 'r' :: 'u' :: 'e' :: r => some (.tru, r)
    | _ => none
  else if c = 'f' then
    match rest with
    | 'a' :: 'l' :: 's' :: 'e' :: r => some (.fls, r)
    | _ => none
  else if c = 'n' then
    match rest with
    | 'u' :: 'l' :: 'l' :: r => some (.nul, r)
    | _ => none
  else none

/-- Result of scanning for the next token. -/
inductive NextRes where
  | done
  | err
  | tok (t : Tok) (rest : List Char)
deriving Repr, DecidableEq

/-- Skip whitespace and scan one token. -/
def nextTok (cs : List Char) : NextRes :=
  match skipWs cs with
  | [] => .done
  | c :: rest =>
      match nextTokCore c rest with
      | none => .err
      | some (t, r) => .tok t r

/-- Tokenize the whole input; `fuel` bounds the number of tokens (each token
consumes at least one character, so `length + 1` is always enough). -/
def lexF : Nat → List Char → Option (List Tok)
  | 0, _ => none
  | fuel + 1, cs =>
      match nextTok cs with
      | .done => some []
      | .err => none
      | .tok t r => (fun ts => t :: ts) <$> lexF fuel r

/-- Tokenize the whole input. -/
def lexAll (cs : List Char) : Option (List Tok) := lexF (cs.length + 1) cs

mutual

/-- Parse one JSON value from a token stream; `fuel` bounds the recursion
depth (each recursive call consumes at least one token first, so
`length + 1` is always enough).  An object is built the way CPython's
scanner builds it: the member pairs are inserted into an initially empty
dict in order, so a duplicated key keeps its first position and its last
value. -/
def parseTokVal : Nat → List Tok → Option (Json × List Tok)
  | 0, _ => none
  | fuel + 1, ts =>
      match ts with
      | .nul :: r => some (.null, r)
      | .tru :: r => some (.bool true, r)
      | .fls :: r => some (.bool false, r)
      | .num n :: r => some (.num n, r)
      | .str s :: r => some (.str s, r)
      | .lbrack :: r =>
          if r.head? = some Tok.rbrack then some (.arr [], r.tail)
          else
            match parseTokVal fuel r with
            | none => none
            | some (x, r₁) =>
                match parseTokArrTail fuel r₁ with
                | none => none
                | some (xs, r₂) => some (.arr (x :: xs), r₂)
      | .lbrace :: r =>
          if r.head? = some Tok.rbrace then some (.obj [], r.tail)
          else
            match r with
            | .str k :: .colon :: r' =>
                match parseTokVal fuel r' with
                | none => none
                | some (v, r₁) =>
                    match parseTokObjTail fuel r₁ with
                    | none => none
                    | some (ms, r₂) =>
                        some (.obj (((k, v) :: ms).foldl
                          (fun acc m => dictSet acc m.1 m.2) []), r₂)
            | _ => none
      | _ => none

/-- After one array element: either `]` or `,` and another element. -/
def parseTokArrTail : Nat → List Tok → Option (List Json × List Tok)
  | 0, _ => none
  | fuel + 1, ts =>
      match ts with
      | .rbrack :: r => some ([], r)
      | .comma :: r =>
          match parseTokVal fuel r with
          | none => none
          | some (x, r₁) =>
              match parseTokArrTail fuel r₁ with
              | none => none
              | some (xs, r₂) => some (x :: xs, r₂)
      | _ => none

/-- After one object member: either `}` or `,` and another member. -/
def parseTokObjTail : Nat → List Tok → Option (List (String × Json) × List Tok)
  | 0, _ => none
  | fuel + 1, ts =>
      match ts with
      | .rbrace :: r => some ([], r)
      | .comma :: .str k :: .colon :: r =>
          match parseTokVal fuel r with
          | none => none
          | some (v, r₁) =>
              match parseTokObjTail fuel r₁ with
              | none => none
              | some (ms, r₂) => some ((k, v) :: ms, r₂)
      | _ => none

end

/-- `json.loads(s)`: tokenize, parse one value, and require that the whole
input was consumed.  `none` models `json.JSONDecodeError`. -/
def parseJson (s : String) : Option Json :=
  match lexAll s.data with
  | none => none
  | some ts =>
      match parseTokVal (ts.length + 1) ts with
      | some (j, []) => some j
      | _ => none

mutual

/-- The token stream of a serialized JSON value (the same stream for the
compact and the indented serializer, whitespace apart). -/
def jtoks : Json → List Tok
  | .null => [.nul]
  | .bool true => [.tru]
  | .bool false => [.fls]
  | .num n => [.num n]
  | .str s => [.str s]
  | .arr [] => [.lbrack, .rbrack]
  | .arr (x :: xs) => .lbrack :: (jtoks x ++ jtoksArrTail xs)
  | .obj [] => [.lbrace, .rbrace]
  | .obj (m :: ms) => .lbrace :: .str m.1 :: .colon :: (jtoks m.2 ++ jtoksObjTail ms)

/-- Tokens of the remaining elements of a non-empty array. -/
def jtoksArrTail : List Json → List Tok
  | [] => [.rbrack]
  | x :: xs => .comma :: (jtoks x ++ jtoksArrTail xs)

/-- Tokens of the remaining members of a non-empty object. -/
def jtoksObjTail : List (String × Json) → List Tok
  | [] => [.rbrace]
  | m :: ms => .comma :: .str m.1 :: .colon :: (jtoks m.2 ++ jtoksObjTail ms)

end

/-! ### The shared-memory store and the tool functions
(`src/backend/tools/auto_gitops_tools.py`) -/

/-- The backing file (`SHARED_MEMORY_PATH`): absent, or present with text
`s`. -/
inductive FileState where
  | absent
  | content (s : String)
deriving Repr, DecidableEq

/-- Python exceptions the tools can raise. -/
inductive PyErr where
  | jsonDecodeError
  | attributeError
  | typeError
deriving Repr, DecidableEq

deriving instance DecidableEq for Except

/-- `ensure_memory_file()`: create the file with `json.dump({}, f)` (the text
`"{}"`) when it does not exist; leave it untouched otherwise.  (`os.makedirs`
of the parent directory has no observable effect on the file itself.) -/
def ensure_memory_file : FileState → FileState
  | .absent => .content "{}"
  | .content s => .content s

/-- `json.load(f)` on the opened backing file.  A missing file cannot reach
this point in the source (every caller runs `ensure_memory_file` first); it
is mapped to an error like the `FileNotFoundError` that `open` would
raise. -/
def json_load : FileState → Except PyErr Json
  | .absent => .error .jsonDecodeError
  | .content s =>
      match parseJson s with
      | some j => .ok j
      | none => .error .jsonDecodeError

/-- `read_shared_memory(key)`: ensure the file, `json.load` it, and return
`json.dumps(data)` (no key) or `json.dumps({key: data.get(key)})`.  The pair
is (state after the call, result or raised exception); `data.get` on a
non-dict raises `AttributeError`. -/
def read_shared_memory (st : FileState) (key : Option String) :
    FileState × Except PyErr String :=
  let st₁ := ensure_memory_file st
  match json_load st₁ with
  | .error e => (st₁, .error e)
  | .ok data =>
      match key with
      | none => (st₁, .ok (json_dumps data))
      | some k =>
          match data with
          | .obj m => (st₁, .ok (json_dumps (.obj [(k, dictGet m k)])))
          | _ => (st₁, .error .attributeError)

/-- `write_shared_memory(key, value)`: ensure the file, `json.load` it, set
`data[key] = value`, write the dict back with `json.dump(data, f, indent=2)`
and return a confirmation JSON string.  `data[key] = value` on a non-dict
raises `TypeError`. -/
def write_shared_memory (st : FileState) (k : String) (v : Json) :
    FileState × Except PyErr String :=
  let st₁ := ensure_memory_file st
  match json_load st₁ with
  | .error e => (st₁, .error e)
  | .ok data =>
      match data with
      | .obj m =>
          (.content (json_dumps_indent2 (.obj (dictSet m k v))),
            .ok (json_dumps (.obj
              [("status", .str "ok"), ("key", .str k), ("value", v)])))
      | _ => (st₁, .error .typeError)

/-- Python `str.strip()` whitespace (ASCII part; `str.strip` also strips a
few Unicode spaces, which no claim exercises). -/
def pyIsSpace (c : Char) : Bool :=
  c == ' ' || c == '\t' || c == '\n' || c == '\r' ||
    c == Char.ofNat 11 || c == Char.ofNat 12

/-- Python `s.strip()`. -/
def pyStrip (s : String) : String :=
  String.mk (((s.data.dropWhile pyIsSpace).reverse.dropWhile pyIsSpace).reverse)

/-- `initialize_shared_memory()` from `src/backend/main.py`: ensure the file,
read and strip its text, and if the stripped text is empty or `json.loads`
fails, overwrite the file with `"{}"`; any parsable content (object or not)
is kept. -/
def initialize_shared_memory (st : FileState) : FileState :=
  let st₁ := ensure_memory_file st
  match st₁ with
  | .absent => st₁
  | .content s =>
      if pyStrip s = "" then .content "{}"
      else
        match parseJson (pyStrip s) with
        | some _ => st₁
        | none => .content "{}"

/-- A sequence of `write_shared_memory` calls, threading the file state. -/
def writeSeq (st : FileState) : List (String × Json) → FileState
  | [] => st
  | w :: ws => writeSeq (write_shared_memory st w.1 w.2).1 ws

/-- The value of the last write to `k` in the sequence, if `k` was written. -/
def lastWins (ws : List (String × Json)) (k : String) : Option Json :=
  match ws with
  | [] => none
  | w :: ws' =>
      match lastWins ws' k with
      | some v => some v
      | none => if w.1 = k then some w.2 else none

/-! ### validate_commit_message -/

/-- The fixed commit types of the regex alternation
`feat|fix|chore|docs|refactor|style|perf|test`. -/
def commitTypes : List (List Char) :=
  ["feat".data, "fix".data, "chore".data, "docs".data, "refactor".data,
    "style".data, "perf".data, "test".data]

/-- After the type, the regex continues `:\s.+` (prefix match, no scope):
a colon, one whitespace character (`\s`, which includes tab and newline),
then at least one character matched by `.` (any character except a
newline); the rest of the message is unconstrained because `re.match` only
anchors the start. -/
def colonTail (cs : List Char) : Bool :=
  match cs with
  | ':' :: w :: d :: _ => pyIsSpace w && !(d == '\n')
  | _ => false

/-- Scan for the closing parenthesis of the scope group `\(.+\)`: `seen`
records whether at least one inner character has been consumed (`.+` needs
one); `.` does not match a newline; after the closing parenthesis the rest
must match `:\s.+`.  The disjunction mirrors the backtracking choices of the
regex engine, so the function is true exactly when some split succeeds. -/
def afterParen : Bool → List Char → Bool
  | _, [] => false
  | seen, c :: rest =>
      (c == ')' && seen && colonTail rest) ||
      (!(c == '\n') && afterParen true rest)

/-- Case-insensitive prefix stripping, how `re.IGNORECASE` matches the fixed
type words (ASCII case folding; Python folds some further Unicode letters,
which no claim exercises). -/
def stripPrefixCI : List Char → List Char → Option (List Char)
  | [], cs => some cs
  | _ :: _, [] => none
  | p :: ps, c :: cs => if c.toLower = p.toLower then stripPrefixCI ps cs else none

/-- `re.match(r"^(feat|fix|chore|docs|refactor|style|perf|test)(\(.+\))?:\s.+",
cs, re.IGNORECASE)` viewed as a Bool: does a match exist at the start of
`cs`? -/
def commitRegexMatches (cs : List Char) : Bool :=
  commitTypes.any fun t =>
    match stripPrefixCI t cs with
    | none => false
    | some rest =>
        colonTail rest ||
        (match rest with
          | '(' :: rest' => afterParen false rest'
          | _ => false)

/-- The fixed remediation hint of the validator. -/
def commitHint : String :=
  "Commit message must follow Conventional Commits, e.g. 'feat(module): short description'"

/-- `validate_commit_message(message)`: strip the message, match it against
the conventional-commit regex, and return the JSON verdict string. -/
def validate_commit_message (message : String) : String :=
  if commitRegexMatches (pyStrip message).data then
    json_dumps (.obj [("valid", .bool true)])
  else
    json_dumps (.obj [("valid", .bool false), ("reason", .str commitHint)])

/-- Refinement-side definition, written from the claim's words, NOT from the
code: the separator is a colon AND A SPACE, and the description is one or
more characters. -/
def specColonSpace (cs : List Char) : Bool :=
  match cs with
  | ':' :: ' ' :: _ :: _ => true
  | _ => false

/-- Refinement-side scope scan for the claim's grammar: the scope is optional
non-empty text in parentheses (no further restriction on its characters),
followed by the colon-and-space and a non-empty description. -/
def specAfterParen : Bool → List Char → Bool
  | _, [] => false
  | seen, c :: rest =>
      (c == ')' && seen && specColonSpace rest) || specAfterParen true rest

/-- The claim's grammar `type[(scope)]: description` as an executable
recognizer (refinement-side definition from the spec's words): one of the
eight types case-insensitively, an optional non-empty parenthesized scope,
a colon-and-space, then a non-empty description. -/
def specCommitMatches (cs : List Char) : Bool :=
  commitTypes.any fun t =>
    match stripPrefixCI t cs with
    | none => false
    | some rest =>
        specColonSpace rest ||
        (match rest with
          | '(' :: rest' => specAfterParen false rest'
          | _ => false)

/-- Declarative form of the language the code's regex accepts: some commit
type (case-insensitive) heads the trimmed message, followed either directly
by colon, one whitespace character and a non-newline character, or first by
a non-empty newline-free parenthesized scope; anything may follow (prefix
match). -/
def CommitTail (rest : List Char) : Prop :=
  (∃ w d tl, rest = ':' :: w :: d :: tl ∧ pyIsSpace w = true ∧ d ≠ '\n') ∨
  (∃ inner w d tl, rest = '(' :: (inner ++ ')' :: ':' :: w :: d :: tl) ∧
    inner ≠ [] ∧ '\n' ∉ inner ∧ pyIsSpace w = true ∧ d ≠ '\n')

/-- The language of the validator's regex, declaratively. -/
def CommitGrammar (cs : List Char) : Prop :=
  ∃ t ∈ commitTypes, ∃ pre rest, cs = pre ++ rest ∧
    pre.map Char.toLower = t ∧ CommitTail rest

/-! ### trigger_pipeline -/

/-- Python `s.replace(a, b)` for one-character patterns. -/
def replaceChar (s : String) (a b : Char) : String :=
  String.mk (s.data.map fun c => if c = a then b else c)

/-- The mock pipeline identifier
`f"mock-pipeline-{repo_full_name.replace('/', '-')}-{branch}-{int(datetime.utcnow().timestamp())}"`;
the clock read is the explicit `epochSeconds` argument (seconds, truncated
by `int`). -/
def pipeline_id (repo_full_name branch : String) (epochSeconds : Nat) : String :=
  "mock-pipeline-" ++ replaceChar repo_full_name '/' '-' ++ "-" ++ branch ++ "-" ++
    String.mk (natDigits epochSeconds)

/-- `trigger_pipeline(repo_full_name, branch, pipeline_type)`: the returned
JSON string.  The two clock reads of the source
(`datetime.utcnow().isoformat()` and `int(datetime.utcnow().timestamp())`)
are the explicit arguments `isoTimestamp` and `epochSeconds`. -/
def trigger_pipeline (repo_full_name branch pipeline_type : String)
    (epochSeconds : Nat) (isoTimestamp : String) : String :=
  json_dumps (.obj [
    ("status", .str "triggered"),
    ("pipeline_id", .str (pipeline_id repo_full_name branch epochSeconds)),
    ("repo", .str repo_full_name),
    ("branch", .str branch),
    ("type", .str pipeline_type),
    ("triggered_at", .str (isoTimestamp ++ "Z"))])

/-! ### create_report_file -/

/-- `title.lower().replace(" ", "-")[:80]` (ASCII lower-casing; Python also
lower-cases further Unicode letters, which no claim exercises). -/
def pySlugTitle (title : String) : String :=
  String.mk (((title.data.map Char.toLower).map
    fun c => if c = ' ' then '-' else c).take 80)

/-- `f"{repo.replace('/', '_')}_{safe_title}_{ts}.md"` where `ts` is the
`strftime("%Y%m%dT%H%M%SZ")` clock read, passed explicitly. -/
def report_filename (repo title ts : String) : String :=
  replaceChar repo '/' '_' ++ "_" ++ pySlugTitle title ++ "_" ++ ts ++ ".md"

/-- The text written into the report file: heading, generation line, blank
line, then the body verbatim. -/
def report_content (title ts content_md : String) : String :=
  "# " ++ title ++ "\n\n" ++ "_Generated: " ++ ts ++ "_\n\n" ++ content_md

/-- `create_report_file(repo, title, content_md)`: the path written
(`os.path.join(REPORTS_DIR, filename)`, which is `REPORTS_DIR ++ "/" ++
filename` since the filename never starts with a slash), the file content,
and the returned JSON string. -/
def create_report_file (repo title content_md : String) (ts reportsDir : String) :
    String × String × String :=
  let path := reportsDir ++ "/" ++ report_filename repo title ts
  (path, report_content title ts content_md,
    json_dumps (.obj [("status", .str "written"), ("path", .str path)]))

/-! ### POSIX-style path resolution (to state where a report path points) -/

/-- Split a character list at `/`. -/
def splitSlashAux : List Char → List Char → List String
  | acc, [] => [String.mk acc.reverse]
  | acc, c :: rest =>
      if c = '/' then String.mk acc.reverse :: splitSlashAux [] rest
      else splitSlashAux (c :: acc) rest

/-- Split a path at `/` (how `s.split("/")` behaves). -/
def splitSlash (s : String) : List String := splitSlashAux [] s.data

/-- Resolve `.`, `` (empty) and `..` components of a relative path; a `..`
that cannot be popped is kept, recording an escape above the starting
directory. -/
def normPath : List String → List String → List String
  | stack, [] => stack.reverse
  | stack, c :: rest =>
      if c = "" || c = "." then normPath stack rest
      else if c = ".." then
        match stack with
        | [] => normPath [".."] rest
        | s :: stack' =>
            if s = ".." then normPath (".." :: s :: stack') rest
            else normPath stack' rest
      else normPath (c :: stack) rest

/-- The resolved components of a relative path. -/
def resolvedComponents (s : String) : List String := normPath [] (splitSlash s)

/-- `as` is a leading run of `bs`. -/
def leadsWith : List String → List String → Bool
  | [], _ => true
  | _ :: _, [] => false
  | a :: as, b :: bs => (a == b) && leadsWith as bs

/-- The location `path` names is inside the directory `dir` (both taken
relative to the same working directory). -/
def pointsUnder (path dir : String) : Bool :=
  leadsWith (resolvedComponents dir) (resolvedComponents path)

/-! ### Lexer correctness on serializer output -/

/-- Nothing at the head of `cs` can extend a decimal numeral. -/
def numBoundary (cs : List Char) : Prop :=
  ∀ c, cs.head? = some c → c.isDigit = false

theorem numBoundary_nil : numBoundary [] := by
  intro c h
  simp at h

theorem numBoundary_cons {c : Char} {cs : List Char} (h : c.isDigit = false) :
    numBoundary (c :: cs) := by
  intro d hd
  simp at hd
  exact hd ▸ h

theorem toNat_bounds_of_isDigit {c : Char} (h : c.isDigit = true) :
    48 ≤ c.toNat ∧ c.toNat ≤ 57 := by
  simpa [Char.isDigit] using h

theorem not_ws_of_digit {c : Char} (h : c.isDigit = true) : isWsChar c = false := by
  simp only [isWsChar, Bool.or_eq_false_iff, beq_eq_false_iff_ne, ne_eq]
  refine ⟨⟨⟨?_, ?_⟩, ?_⟩, ?_⟩ <;> intro he <;> simp [he] at h

theorem skipWs_not_ws {c : Char} {cs : List Char} (h : isWsChar c = false) :
    skipWs (c :: cs) = c :: cs := by
  simp [skipWs, h]

theorem skipWs_ws_append {ws cs : List Char} (h : ∀ c ∈ ws, isWsChar c = true) :
    skipWs (ws ++ cs) = skipWs cs := by
  induction ws with
  | nil => rfl
  | cons c ws ih =>
      simp only [List.cons_append, skipWs, h c (by simp), if_true]
      exact ih fun d hd => h d (by simp [hd])

theorem nextTok_ws_append {ws cs : List Char} (h : ∀ c ∈ ws, isWsChar c = true) :
    nextTok (ws ++ cs) = nextTok cs := by
  simp [nextTok, skipWs_ws_append h]

theorem lexF_ws_append {ws cs : List Char} (h : ∀ c ∈ ws, isWsChar c = true)
    (fuel : Nat) : lexF fuel (ws ++ cs) = lexF fuel cs := by
  cases fuel with
  | zero => rfl
  | succ f => simp [lexF, nextTok_ws_append h]

theorem takeWhile_digits {ds r : List Char} (hd : ∀ c ∈ ds, c.isDigit = true)
    (hr : numBoundary r) : (ds ++ r).takeWhile Char.isDigit = ds := by
  induction ds with
  | nil =>
      cases r with
      | nil => rfl
      | cons c r => simp [List.takeWhile_cons, hr c rfl]
  | cons c ds ih =>
      simp only [List.cons_append, List.takeWhile_cons, hd c (by simp), if_true]
      rw [ih fun d hdm => hd d (by simp [hdm])]

theorem dropWhile_digits {ds r : List Char} (hd : ∀ c ∈ ds, c.isDigit = true)
    (hr : numBoundary r) : (ds ++ r).dropWhile Char.isDigit = r := by
  induction ds with
  | nil =>
      cases r with
      | nil => rfl
      | cons c r => simp [List.dropWhile_cons, hr c rfl]
  | cons c ds ih =>
      simp only [List.cons_append, List.dropWhile_cons, hd c (by simp), if_true]
      exact ih fun d hdm => hd d (by simp [hdm])

theorem nextTok_lbrace (cs : List Char) : nextTok ('{' :: cs) = .tok .lbrace cs := rfl

theorem nextTok_rbrace (cs : List Char) : nextTok ('}' :: cs) = .tok .rbrace cs := rfl

theorem nextTok_lbrack (cs : List Char) : nextTok ('[' :: cs) = .tok .lbrack cs := rfl

theorem nextTok_rbrack (cs : List Char) : nextTok (']' :: cs) = .tok .rbrack cs := rfl

theorem nextTok_colon (cs : List Char) : nextTok (':' :: cs) = .tok .colon cs := rfl

theorem nextTok_comma (cs : List Char) : nextTok (',' :: cs) = .tok .comma cs := rfl

theorem nextTok_true (cs : List Char) :
    nextTok ('t' :: 'r' :: 'u' :: 'e' :: cs) = .tok .tru cs := rfl

theorem nextTok_false (cs : List Char) :
    nextTok ('f' :: 'a' :: 'l' :: 's' :: 'e' :: cs) = .tok .fls cs := rfl

theorem nextTok_null (cs : List Char) :
    nextTok ('n' :: 'u' :: 'l' :: 'l' :: cs) = .tok .nul cs := rfl

theorem nextTokCore_digit {c : Char} (h : c.isDigit = true) (rest : List Char) :
    nextTokCore c rest =
      some (.num (digitsVal (c :: rest.takeWhile Char.isDigit) : Int),
        rest.dropWhile Char.isDigit) := by
  have h1 : ¬(c = '{') := fun he => by simp [he] at h
  have h2 : ¬(c = '}') := fun he => by simp [he] at h
  have h3 : ¬(c = '[') := fun he => by simp [he] at h
  have h4 : ¬(c = ']') := fun he => by simp [he] at h
  have h5 : ¬(c = ':') := fun he => by simp [he] at h
  have h6 : ¬(c = ',') := fun he => by simp [he] at h
  have h7 : ¬(c = '"') := fun he => by simp [he] at h
  have h8 : ¬(c = '-') := fun he => by simp [he] at h
  simp [nextTokCore, h1, h2, h3, h4, h5, h6, h7, h8, h]

theorem nextTok_nat (n : Nat) {cs : List Char} (hb : numBoundary cs) :
    nextTok (natDigits n ++ cs) = .tok (.num (n : Int)) cs := by
  obtain ⟨d, ds, hds⟩ : ∃ d ds, natDigits n = d :: ds := by
    cases hnd : natDigits n with
    | nil => exact absurd hnd (natDigits_ne_nil n)
    | cons d ds => exact ⟨d, ds, rfl⟩
  have hall := natDigits_all_digit n
  rw [hds] at hall
  have hd : d.isDigit = true := hall d (by simp)
  have hdall : ∀ c ∈ ds, c.isDigit = true := fun c hc => hall c (by simp [hc])
  rw [hds, List.cons_append]
  simp only [nextTok, skipWs_not_ws (not_ws_of_digit hd), nextTokCore_digit hd,
    takeWhile_digits hdall hb, dropWhile_digits hdall hb]
  rw [show d :: ds = natDigits n from hds.symm, digitsVal_natDigits]

theorem nextTok_int (n : Int) {cs : List Char} (hb : numBoundary cs) :
    nextTok (intChars n ++ cs) = .tok (.num n) cs := by
  by_cases hneg : n < 0
  · obtain ⟨d, ds, hds⟩ : ∃ d ds, natDigits n.natAbs = d :: ds := by
      cases hnd : natDigits n.natAbs with
      | nil => exact absurd hnd (natDigits_ne_nil _)
      | cons d ds => exact ⟨d, ds, rfl⟩
    have hall := natDigits_all_digit n.natAbs
    rw [hds] at hall
    have hcore : ∀ rest : List Char, nextTokCore '-' rest =
        (match rest.takeWhile Char.isDigit with
          | [] => none
          | ds => some (.num (-(digitsVal ds : Int)), rest.dropWhile Char.isDigit)) :=
      fun _ => rfl
    rw [intChars, if_pos hneg, hds]
    have ht : List.takeWhile Char.isDigit (d :: (ds ++ cs)) = d :: ds := by
      rw [← List.cons_append]
      exact takeWhile_digits (fun c hc => hall c hc) hb
    have hdr : List.dropWhile Char.isDigit (d :: (ds ++ cs)) = cs := by
      rw [← List.cons_append]
      exact dropWhile_digits (fun c hc => hall c hc) hb
    simp only [List.cons_append, nextTok, skipWs_not_ws (by decide : isWsChar '-' = false),
      hcore, ht, hdr]
    rw [show d :: ds = natDigits n.natAbs from hds.symm, digitsVal_natDigits]
    have hval : -(n.natAbs : Int) = n := by omega
    rw [hval]
  · rw [intChars, if_neg hneg, nextTok_nat n.toNat hb]
    have hval : (n.toNat : Int) = n := by omega
    rw [hval]

theorem hexVal_hexDigitChar {d : Nat} (h : d < 16) : hexVal (hexDigitChar d) = some d := by
  interval_cases d <;> decide

theorem lexStr_quote (cs : List Char) : lexStr ('"' :: cs) = some ([], cs) := by
  rw [lexStr.eq_def]
  rfl

theorem lexStr_esc_quote (cs : List Char) :
    lexStr ('\\' :: '"' :: cs) = (fun p => ('"' :: p.1, p.2)) <$> lexStr cs := by
  rw [lexStr.eq_def]
  rfl

theorem lexStr_esc_back (cs : List Char) :
    lexStr ('\\' :: '\\' :: cs) = (fun p => ('\\' :: p.1, p.2)) <$> lexStr cs := by
  rw [lexStr.eq_def]
  rfl

theorem lexStr_esc_n (cs : List Char) :
    lexStr ('\\' :: 'n' :: cs) = (fun p => ('\n' :: p.1, p.2)) <$> lexStr cs := by
  rw [lexStr.eq_def]
  rfl

theorem lexStr_esc_t (cs : List Char) :
    lexStr ('\\' :: 't' :: cs) = (fun p => ('\t' :: p.1, p.2)) <$> lexStr cs := by
  rw [lexStr.eq_def]
  rfl

theorem lexStr_esc_r (cs : List Char) :
    lexStr ('\\' :: 'r' :: cs) = (fun p => ('\r' :: p.1, p.2)) <$> lexStr cs := by
  rw [lexStr.eq_def]
  rfl

theorem lexStr_esc_b (cs : List Char) :
    lexStr ('\\' :: 'b' :: cs) = (fun p => (Char.ofNat 8 :: p.1, p.2)) <$> lexStr cs := by
  rw [lexStr.eq_def]
  rfl

theorem lexStr_esc_f (cs : List Char) :
    lexStr ('\\' :: 'f' :: cs) = (fun p => (Char.ofNat 12 :: p.1, p.2)) <$> lexStr cs := by
  rw [lexStr.eq_def]
  rfl

theorem lexStr_esc_u (d₁ d₂ d₃ d₄ : Char) (cs : List Char) :
    lexStr ('\\' :: 'u' :: d₁ :: d₂ :: d₃ :: d₄ :: cs) =
      (match hexVal d₁, hexVal d₂, hexVal d₃, hexVal d₄ with
        | some a, some b, some c', some d =>
            if Nat.isValidChar (((a * 16 + b) * 16 + c') * 16 + d) then
              (fun p => (Char.ofNat (((a * 16 + b) * 16 + c') * 16 + d) :: p.1, p.2))
                <$> lexStr cs
            else none
        | _, _, _, _ => none) := by
  rw [lexStr.eq_def]
  rfl

theorem lexStr_literal {c : Char} (hq : ¬c = '"') (hb : ¬c = '\\')
    (hc : ¬c.toNat < 32) (cs : List Char) :
    lexStr (c :: cs) = (fun p => (c :: p.1, p.2)) <$> lexStr cs := by
  rw [lexStr.eq_def]
  simp [hq, hb, hc]

theorem lexStr_escape (s cs : List Char) :
    lexStr (escapeStr s ++ '"' :: cs) = some (s, cs) := by
  induction s with
  | nil => exact lexStr_quote cs
  | cons c s ih =>
      show lexStr ((escapeChar c ++ escapeStr s) ++ '"' :: cs) = _
      rw [List.append_assoc]
      by_cases h1 : c = '"'
      · subst h1
        simp [escapeChar, lexStr_esc_quote, ih]
      by_cases h2 : c = '\\'
      · subst h2
        simp [escapeChar, lexStr_esc_back, ih]
      by_cases h3 : c = '\n'
      · subst h3
        simp [escapeChar, lexStr_esc_n, ih]
      by_cases h4 : c = '\t'
      · subst h4
        simp [escapeChar, lexStr_esc_t, ih]
      by_cases h5 : c = '\r'
      · subst h5
        simp [escapeChar, lexStr_esc_r, ih]
      by_cases h6 : c.toNat = 8
      · have hc : Char.ofNat 8 = c := by
          rw [show (8 : Nat) = c.toNat from h6.symm, Char.ofNat_toNat]
        simp [escapeChar, h1, h2, h3, h4, h5, h6, lexStr_esc_b, ih]
        exact hc
      by_cases h7 : c.toNat = 12
      · have hc : Char.ofNat 12 = c := by
          rw [show (12 : Nat) = c.toNat from h7.symm, Char.ofNat_toNat]
        simp [escapeChar, h1, h2, h3, h4, h5, h6, h7, lexStr_esc_f, ih]
        exact hc
      by_cases h8 : c.toNat < 32
      · have hdiv : c.toNat / 16 < 16 := by omega
        have hmod : c.toNat % 16 < 16 := by omega
        simp only [escapeChar, if_neg h1, if_neg h2, if_neg h3, if_neg h4, if_neg h5,
          if_neg h6, if_neg h7, if_pos h8, List.cons_append, List.nil_append,
          lexStr_esc_u, hexVal_hexDigitChar hdiv, hexVal_hexDigitChar hmod,
          show hexVal '0' = some 0 from rfl]
        rw [show ((0 * 16 + 0) * 16 + c.toNat / 16) * 16 + c.toNat % 16 = c.toNat from
          by omega]
        have hvalid : Nat.isValidChar c.toNat := Or.inl (by omega)
        rw [if_pos hvalid, ih]
        simp [Char.ofNat_toNat]
      · simp [escapeChar, h1, h2, h3, h4, h5, h6, h7, h8, lexStr_literal h1 h2 h8, ih]

theorem nextTok_strLit (s : String) (cs : List Char) :
    nextTok (strLit s ++ cs) = .tok (.str s) cs := by
  show nextTok (('"' :: (escapeStr s.data ++ ['"'])) ++ cs) = _
  rw [List.cons_append, List.append_assoc]
  have hcore : ∀ rest : List Char, nextTokCore '"' rest =
      (fun p => (Tok.str (String.mk p.1), p.2)) <$> lexStr rest := fun _ => rfl
  simp only [nextTok, skipWs_not_ws (show isWsChar '"' = false by decide), hcore]
  rw [show ['"'] ++ cs = '"' :: cs from rfl, lexStr_escape]
  rfl

theorem lexF_tok {cs : List Char} {t : Tok} {r : List Char}
    (h : nextTok cs = .tok t r) (fuel : Nat) :
    lexF (fuel + 1) cs = (fun ts => t :: ts) <$> lexF fuel r := by
  simp [lexF, h]

theorem lexF_nil (fuel : Nat) : lexF (fuel + 1) [] = some [] := by
  simp [lexF, show nextTok [] = .done from rfl]

theorem numBoundary_dumpArrTail (xs : List Json) (cs : List Char) :
    numBoundary (dumpArrTail xs ++ cs) := by
  cases xs with
  | nil =>
      simp only [dumpArrTail, List.cons_append, List.nil_append]
      exact numBoundary_cons (by decide)
  | cons x xs =>
      simp only [dumpArrTail, List.cons_append]
      exact numBoundary_cons (by decide)

theorem numBoundary_dumpObjTail (ms : List (String × Json)) (cs : List Char) :
    numBoundary (dumpObjTail ms ++ cs) := by
  cases ms with
  | nil =>
      simp only [dumpObjTail, List.cons_append, List.nil_append]
      exact numBoundary_cons (by decide)
  | cons m ms =>
      simp only [dumpObjTail, List.cons_append]
      exact numBoundary_cons (by decide)

mutual

theorem lexF_dump : ∀ (j : Json) (fuel : Nat) (cs : List Char), numBoundary cs →
    lexF (fuel + (jtoks j).length) (dumpJson j ++ cs) =
      (fun ts => jtoks j ++ ts) <$> lexF fuel cs
  | .null, fuel, cs, hb => by
      simp only [jtoks, dumpJson, List.length_cons, List.length_nil, List.cons_append,
        List.nil_append]
      rw [show fuel + (0 + 1) = fuel + 1 from by omega, lexF_tok (nextTok_null cs)]
      all_goals cases lexF fuel cs <;> rfl
  | .bool true, fuel, cs, hb => by
      simp only [jtoks, dumpJson, List.length_cons, List.length_nil, List.cons_append,
        List.nil_append]
      rw [show fuel + (0 + 1) = fuel + 1 from by omega, lexF_tok (nextTok_true cs)]
      all_goals cases lexF fuel cs <;> rfl
  | .bool false, fuel, cs, hb => by
      simp only [jtoks, dumpJson, List.length_cons, List.length_nil, List.cons_append,
        List.nil_append]
      rw [show fuel + (0 + 1) = fuel + 1 from by omega, lexF_tok (nextTok_false cs)]
      all_goals cases lexF fuel cs <;> rfl
  | .num n, fuel, cs, hb => by
      simp only [jtoks, dumpJson, List.length_cons, List.length_nil]
      rw [show fuel + (0 + 1) = fuel + 1 from by omega, lexF_tok (nextTok_int n hb)]
      all_goals cases lexF fuel cs <;> rfl
  | .str s, fuel, cs, hb => by
      simp only [jtoks, dumpJson, List.length_cons, List.length_nil]
      rw [show fuel + (0 + 1) = fuel + 1 from by omega, lexF_tok (nextTok_strLit s cs)]
      all_goals cases lexF fuel cs <;> rfl
  | .arr [], fuel, cs, hb => by
      simp only [jtoks, dumpJson, List.length_cons, List.length_nil, List.cons_append,
        List.nil_append]
      rw [show fuel + (0 + 1 + 1) = (fuel + 1) + 1 from by omega,
        lexF_tok (nextTok_lbrack (']' :: cs)), lexF_tok (nextTok_rbrack cs)]
      all_goals cases lexF fuel cs <;> rfl
  | .arr (x :: xs), fuel, cs, hb => by
      have ihx := lexF_dump x (fuel + (jtoksArrTail xs).length)
        (dumpArrTail xs ++ cs) (numBoundary_dumpArrTail xs cs)
      have iht := lexF_dumpArrTail xs fuel cs hb
      simp only [jtoks, dumpJson, List.length_cons, List.length_append,
        List.cons_append, List.append_assoc]
      rw [show fuel + ((jtoks x).length + (jtoksArrTail xs).length + 1) =
        ((fuel + (jtoksArrTail xs).length) + (jtoks x).length) + 1 from by omega,
        lexF_tok (nextTok_lbrack _), ihx, iht]
      all_goals cases lexF fuel cs <;> simp
  | .obj [], fuel, cs, hb => by
      simp only [jtoks, dumpJson, List.length_cons, List.length_nil, List.cons_append,
        List.nil_append]
      rw [show fuel + (0 + 1 + 1) = (fuel + 1) + 1 from by omega,
        lexF_tok (nextTok_lbrace ('}' :: cs)), lexF_tok (nextTok_rbrace cs)]
      all_goals cases lexF fuel cs <;> rfl
  | .obj ((k, v) :: ms), fuel, cs, hb => by
      have ihv := lexF_dump v (fuel + (jtoksObjTail ms).length)
        (dumpObjTail ms ++ cs) (numBoundary_dumpObjTail ms cs)
      have iht := lexF_dumpObjTail ms fuel cs hb
      simp only [jtoks, dumpJson, List.length_cons, List.length_append,
        List.cons_append, List.append_assoc]
      rw [show fuel + ((jtoks v).length + (jtoksObjTail ms).length + 1 + 1 + 1) =
        ((((fuel + (jtoksObjTail ms).length) + (jtoks v).length) + 1) + 1) + 1
        from by omega,
        lexF_tok (nextTok_lbrace _), lexF_tok (nextTok_strLit k _),
        lexF_tok (nextTok_colon _)]
      rw [show (' ' :: (dumpJson v ++ (dumpObjTail ms ++ cs))) =
        [' '] ++ (dumpJson v ++ (dumpObjTail ms ++ cs)) from rfl,
        lexF_ws_append (by decide)]
      rw [ihv, iht]
      all_goals cases lexF fuel cs <;> simp
  termination_by j => sizeOf j

theorem lexF_dumpArrTail : ∀ (xs : List Json) (fuel : Nat) (cs : List Char),
    numBoundary cs →
    lexF (fuel + (jtoksArrTail xs).length) (dumpArrTail xs ++ cs) =
      (fun ts => jtoksArrTail xs ++ ts) <$> lexF fuel cs
  | [], fuel, cs, hb => by
      simp only [jtoksArrTail, dumpArrTail, List.length_cons, List.length_nil,
        List.cons_append, List.nil_append]
      rw [show fuel + (0 + 1) = fuel + 1 from by omega, lexF_tok (nextTok_rbrack cs)]
      all_goals cases lexF fuel cs <;> rfl
  | x :: xs, fuel, cs, hb => by
      have ihx := lexF_dump x (fuel + (jtoksArrTail xs).length)
        (dumpArrTail xs ++ cs) (numBoundary_dumpArrTail xs cs)
      have iht := lexF_dumpArrTail xs fuel cs hb
      simp only [jtoksArrTail, dumpArrTail, List.length_cons, List.length_append,
        List.cons_append, List.append_assoc]
      rw [show fuel + ((jtoks x).length + (jtoksArrTail xs).length + 1) =
        ((fuel + (jtoksArrTail xs).length) + (jtoks x).length) + 1 from by omega,
        lexF_tok (nextTok_comma _)]
      rw [show (' ' :: (dumpJson x ++ (dumpArrTail xs ++ cs))) =
        [' '] ++ (dumpJson x ++ (dumpArrTail xs ++ cs)) from rfl,
        lexF_ws_append (by decide)]
      rw [ihx, iht]
      all_goals cases lexF fuel cs <;> simp
  termination_by xs => sizeOf xs

theorem lexF_dumpObjTail : ∀ (ms : List (String × Json)) (fuel : Nat) (cs : List Char),
    numBoundary cs →
    lexF (fuel + (jtoksObjTail ms).length) (dumpObjTail ms ++ cs) =
      (fun ts => jtoksObjTail ms ++ ts) <$> lexF fuel cs
  | [], fuel, cs, hb => by
      simp only [jtoksObjTail, dumpObjTail, List.length_cons, List.length_nil,
        List.cons_append, List.nil_append]
      rw [show fuel + (0 + 1) = fuel + 1 from by omega, lexF_tok (nextTok_rbrace cs)]
      all_goals cases lexF fuel cs <;> rfl
  | (k, v) :: ms, fuel, cs, hb => by
      have ihv := lexF_dump v (fuel + (jtoksObjTail ms).length)
        (dumpObjTail ms ++ cs) (numBoundary_dumpObjTail ms cs)
      have iht := lexF_dumpObjTail ms fuel cs hb
      simp only [jtoksObjTail, dumpObjTail, List.length_cons, List.length_append,
        List.cons_append, List.append_assoc]
      rw [show fuel + ((jtoks v).length + (jtoksObjTail ms).length + 1 + 1 + 1) =
        ((((fuel + (jtoksObjTail ms).length) + (jtoks v).length) + 1) + 1) + 1
        from by omega,
        lexF_tok (nextTok_comma _)]
      rw [show (' ' :: (strLit k ++ ':' :: ' ' :: (dumpJson v ++ (dumpObjTail ms ++ cs)))) =
        [' '] ++ (strLit k ++ ':' :: ' ' :: (dumpJson v ++ (dumpObjTail ms ++ cs)))
        from rfl,
        lexF_ws_append (by decide),
        lexF_tok (nextTok_strLit k _), lexF_tok (nextTok_colon _)]
      rw [show (' ' :: (dumpJson v ++ (dumpObjTail ms ++ cs))) =
        [' '] ++ (dumpJson v ++ (dumpObjTail ms ++ cs)) from rfl,
        lexF_ws_append (by decide)]
      rw [ihv, iht]
      all_goals cases lexF fuel cs <;> simp
  termination_by ms => sizeOf ms

end

theorem ws_nl_pad (k : Nat) : ∀ c ∈ '\n' :: pad k, isWsChar c = true := by
  intro c hc
  rcases List.mem_cons.1 hc with h | h
  · subst h
    decide
  · rw [(List.eq_of_mem_replicate h : c = ' ')]
    decide

theorem numBoundary_dumpIndArrTail (d : Nat) (xs : List Json) (cs : List Char) :
    numBoundary (dumpIndArrTail d xs ++ cs) := by
  cases xs with
  | nil =>
      simp only [dumpIndArrTail, List.cons_append]
      exact numBoundary_cons (by decide)
  | cons x xs =>
      simp only [dumpIndArrTail, List.cons_append]
      exact numBoundary_cons (by decide)

theorem numBoundary_dumpIndObjTail (d : Nat) (ms : List (String × Json)) (cs : List Char) :
    numBoundary (dumpIndObjTail d ms ++ cs) := by
  cases ms with
  | nil =>
      simp only [dumpIndObjTail, List.cons_append]
      exact numBoundary_cons (by decide)
  | cons m ms =>
      simp only [dumpIndObjTail, List.cons_append]
      exact numBoundary_cons (by decide)

mutual

theorem lexF_dumpInd : ∀ (j : Json) (d fuel : Nat) (cs : List Char), numBoundary cs →
    lexF (fuel + (jtoks j).length) (dumpInd d j ++ cs) =
      (fun ts => jtoks j ++ ts) <$> lexF fuel cs
  | .null, _, fuel, cs, hb => by
      simp only [jtoks, dumpInd, List.length_cons, List.length_nil, List.cons_append,
        List.nil_append]
      rw [show fuel + (0 + 1) = fuel + 1 from by omega, lexF_tok (nextTok_null cs)]
  | .bool true, _, fuel, cs, hb => by
      simp only [jtoks, dumpInd, List.length_cons, List.length_nil, List.cons_append,
        List.nil_append]
      rw [show fuel + (0 + 1) = fuel + 1 from by omega, lexF_tok (nextTok_true cs)]
  | .bool false, _, fuel, cs, hb => by
      simp only [jtoks, dumpInd, List.length_cons, List.length_nil, List.cons_append,
        List.nil_append]
      rw [show fuel + (0 + 1) = fuel + 1 from by omega, lexF_tok (nextTok_false cs)]
  | .num n, _, fuel, cs, hb => by
      simp only [jtoks, dumpInd, List.length_cons, List.length_nil]
      rw [show fuel + (0 + 1) = fuel + 1 from by omega, lexF_tok (nextTok_int n hb)]
      all_goals cases lexF fuel cs <;> rfl
  | .str s, _, fuel, cs, hb => by
      simp only [jtoks, dumpInd, List.length_cons, List.length_nil]
      rw [show fuel + (0 + 1) = fuel + 1 from by omega, lexF_tok (nextTok_strLit s cs)]
      all_goals cases lexF fuel cs <;> rfl
  | .arr [], _, fuel, cs, hb => by
      simp only [jtoks, dumpInd, List.length_cons, List.length_nil, List.cons_append,
        List.nil_append]
      rw [show fuel + (0 + 1 + 1) = (fuel + 1) + 1 from by omega,
        lexF_tok (nextTok_lbrack (']' :: cs)), lexF_tok (nextTok_rbrack cs)]
      all_goals cases lexF fuel cs <;> rfl
  | .arr (x :: xs), d, fuel, cs, hb => by
      have ihx := lexF_dumpInd x (d + 2) (fuel + (jtoksArrTail xs).length)
        (dumpIndArrTail d xs ++ cs) (numBoundary_dumpIndArrTail d xs cs)
      have iht := lexF_dumpIndArrTail d xs fuel cs hb
      simp only [jtoks, dumpInd, List.length_cons, List.length_append,
        List.cons_append, List.append_assoc]
      rw [show fuel + ((jtoks x).length + (jtoksArrTail xs).length + 1) =
        ((fuel + (jtoksArrTail xs).length) + (jtoks x).length) + 1 from by omega,
        lexF_tok (nextTok_lbrack _)]
      rw [show ('\n' :: (pad (d + 2) ++ (dumpInd (d + 2) x ++ (dumpIndArrTail d xs ++ cs)))) =
        ('\n' :: pad (d + 2)) ++ (dumpInd (d + 2) x ++ (dumpIndArrTail d xs ++ cs))
        from rfl,
        lexF_ws_append (ws_nl_pad (d + 2))]
      rw [ihx, iht]
      all_goals cases lexF fuel cs <;> simp
  | .obj [], _, fuel, cs, hb => by
      simp only [jtoks, dumpInd, List.length_cons, List.length_nil, List.cons_append,
        List.nil_append]
      rw [show fuel + (0 + 1 + 1) = (fuel + 1) + 1 from by omega,
        lexF_tok (nextTok_lbrace ('}' :: cs)), lexF_tok (nextTok_rbrace cs)]
      all_goals cases lexF fuel cs <;> rfl
  | .obj ((k, v) :: ms), d, fuel, cs, hb => by
      have ihv := lexF_dumpInd v (d + 2) (fuel + (jtoksObjTail ms).length)
        (dumpIndObjTail d ms ++ cs) (numBoundary_dumpIndObjTail d ms cs)
      have iht := lexF_dumpIndObjTail d ms fuel cs hb
      simp only [jtoks, dumpInd, List.length_cons, List.length_append,
        List.cons_append, List.append_assoc]
      rw [show fuel + ((jtoks v).length + (jtoksObjTail ms).length + 1 + 1 + 1) =
        ((((fuel + (jtoksObjTail ms).length) + (jtoks v).length) + 1) + 1) + 1
        from by omega,
        lexF_tok (nextTok_lbrace _)]
      rw [show ('\n' :: (pad (d + 2) ++
          (strLit k ++ ':' :: ' ' :: (dumpInd (d + 2) v ++ (dumpIndObjTail d ms ++ cs))))) =
        ('\n' :: pad (d + 2)) ++
          (strLit k ++ ':' :: ' ' :: (dumpInd (d + 2) v ++ (dumpIndObjTail d ms ++ cs)))
        from rfl,
        lexF_ws_append (ws_nl_pad (d + 2)),
        lexF_tok (nextTok_strLit k _), lexF_tok (nextTok_colon _)]
      rw [show (' ' :: (dumpInd (d + 2) v ++ (dumpIndObjTail d ms ++ cs))) =
        [' '] ++ (dumpInd (d + 2) v ++ (dumpIndObjTail d ms ++ cs)) from rfl,
        lexF_ws_append (by decide)]
      rw [ihv, iht]
      all_goals cases lexF fuel cs <;> simp
  termination_by j => sizeOf j

theorem lexF_dumpIndArrTail : ∀ (d : Nat) (xs : List Json) (fuel : Nat) (cs : List Char),
    numBoundary cs →
    lexF (fuel + (jtoksArrTail xs).length) (dumpIndArrTail d xs ++ cs) =
      (fun ts => jtoksArrTail xs ++ ts) <$> lexF fuel cs
  | d, [], fuel, cs, hb => by
      simp only [jtoksArrTail, dumpIndArrTail, List.length_cons, List.length_nil,
        List.cons_append, List.append_assoc, List.nil_append]
      rw [show fuel + (0 + 1) = fuel + 1 from by omega]
      rw [show ('\n' :: (pad d ++ (']' :: cs))) = ('\n' :: pad d) ++ (']' :: cs)
        from rfl,
        lexF_ws_append (ws_nl_pad d), lexF_tok (nextTok_rbrack cs)]
  | d, x :: xs, fuel, cs, hb => by
      have ihx := lexF_dumpInd x (d + 2) (fuel + (jtoksArrTail xs).length)
        (dumpIndArrTail d xs ++ cs) (numBoundary_dumpIndArrTail d xs cs)
      have iht := lexF_dumpIndArrTail d xs fuel cs hb
      simp only [jtoksArrTail, dumpIndArrTail, List.length_cons, List.length_append,
        List.cons_append, List.append_assoc]
      rw [show fuel + ((jtoks x).length + (jtoksArrTail xs).length + 1) =
        ((fuel + (jtoksArrTail xs).length) + (jtoks x).length) + 1 from by omega,
        lexF_tok (nextTok_comma _)]
      rw [show ('\n' :: (pad (d + 2) ++ (dumpInd (d + 2) x ++ (dumpIndArrTail d xs ++ cs)))) =
        ('\n' :: pad (d + 2)) ++ (dumpInd (d + 2) x ++ (dumpIndArrTail d xs ++ cs))
        from rfl,
        lexF_ws_append (ws_nl_pad (d + 2))]
      rw [ihx, iht]
      all_goals cases lexF fuel cs <;> simp
  termination_by _ xs => sizeOf xs

theorem lexF_dumpIndObjTail : ∀ (d : Nat) (ms : List (String × Json)) (fuel : Nat)
    (cs : List Char), numBoundary cs →
    lexF (fuel + (jtoksObjTail ms).length) (dumpIndObjTail d ms ++ cs) =
      (fun ts => jtoksObjTail ms ++ ts) <$> lexF fuel cs
  | d, [], fuel, cs, hb => by
      simp only [jtoksObjTail, dumpIndObjTail, List.length_cons, List.length_nil,
        List.cons_append, List.append_assoc, List.nil_append]
      rw [show fuel + (0 + 1) = fuel + 1 from by omega]
      rw [show ('\n' :: (pad d ++ ('}' :: cs))) = ('\n' :: pad d) ++ ('}' :: cs)
        from rfl,
        lexF_ws_append (ws_nl_pad d), lexF_tok (nextTok_rbrace cs)]
  | d, (k, v) :: ms, fuel, cs, hb => by
      have ihv := lexF_dumpInd v (d + 2) (fuel + (jtoksObjTail ms).length)
        (dumpIndObjTail d ms ++ cs) (numBoundary_dumpIndObjTail d ms cs)
      have iht := lexF_dumpIndObjTail d ms fuel cs hb
      simp only [jtoksObjTail, dumpIndObjTail, List.length_cons, List.length_append,
        List.cons_append, List.append_assoc]
      rw [show fuel + ((jtoks v).length + (jtoksObjTail ms).length + 1 + 1 + 1) =
        ((((fuel + (jtoksObjTail ms).length) + (jtoks v).length) + 1) + 1) + 1
        from by omega,
        lexF_tok (nextTok_comma _)]
      rw [show ('\n' :: (pad (d + 2) ++
          (strLit k ++ ':' :: ' ' :: (dumpInd (d + 2) v ++ (dumpIndObjTail d ms ++ cs))))) =
        ('\n' :: pad (d + 2)) ++
          (strLit k ++ ':' :: ' ' :: (dumpInd (d + 2) v ++ (dumpIndObjTail d ms ++ cs)))
        from rfl,
        lexF_ws_append (ws_nl_pad (d + 2)),
        lexF_tok (nextTok_strLit k _), lexF_tok (nextTok_colon _)]
      rw [show (' ' :: (dumpInd (d + 2) v ++ (dumpIndObjTail d ms ++ cs))) =
        [' '] ++ (dumpInd (d + 2) v ++ (dumpIndObjTail d ms ++ cs)) from rfl,
        lexF_ws_append (by decide)]
      rw [ihv, iht]
      all_goals cases lexF fuel cs <;> simp
  termination_by _ ms => sizeOf ms

end

/-! ### Token-parser correctness on token streams of well-formed values -/

theorem nodupKeys_iff : ∀ l : List String, nodupKeys l = true ↔ l.Nodup
  | [] => by simp [nodupKeys]
  | k :: rest => by
      simp [nodupKeys, nodupKeys_iff rest, List.nodup_cons]

theorem keysOf_append (a b : List (String × Json)) :
    keysOf (a ++ b) = keysOf a ++ keysOf b := by
  simp [keysOf]

theorem dictSet_not_mem {m : List (String × Json)} {k : String} (v : Json)
    (h : k ∉ keysOf m) : dictSet m k v = m ++ [(k, v)] := by
  induction m with
  | nil => rfl
  | cons p rest ih =>
      obtain ⟨k', v'⟩ := p
      simp only [keysOf, List.map_cons, List.mem_cons, not_or] at h
      have hne : ¬(k' = k) := fun he => h.1 he.symm
      have hrest : k ∉ keysOf rest := by simpa [keysOf] using h.2
      simp [dictSet, hne, ih hrest]

theorem foldl_dictSet_eq_append :
    ∀ (ms acc : List (String × Json)), (keysOf acc ++ keysOf ms).Nodup →
    ms.foldl (fun a m => dictSet a m.1 m.2) acc = acc ++ ms
  | [], acc, _ => by simp
  | (k, v) :: ms, acc, h => by
      have hsplit : (keysOf acc).Disjoint (keysOf ((k, v) :: ms)) :=
        (List.nodup_append.1 h).2.2
      have hk : k ∉ keysOf acc := fun hmem => hsplit hmem (by simp [keysOf])
      simp only [List.foldl_cons]
      rw [dictSet_not_mem v hk]
      rw [foldl_dictSet_eq_append ms (acc ++ [(k, v)]) (by
        rw [keysOf_append]
        simp only [keysOf, List.map_cons, List.map_nil]
        rw [← List.append_cons]
        simpa [keysOf, List.map_cons] using h)]
      simp

theorem foldl_dictSet_self (ms : List (String × Json))
    (h : nodupKeys (keysOf ms) = true) :
    ms.foldl (fun a m => dictSet a m.1 m.2) [] = ms := by
  have hres := foldl_dictSet_eq_append ms [] (by simpa [keysOf, ← nodupKeys_iff] using h)
  simpa using hres

theorem jtoks_shape (j : Json) :
    ∃ t ts, jtoks j = t :: ts ∧ t ≠ Tok.rbrack ∧ t ≠ Tok.rbrace := by
  cases j with
  | null => exact ⟨Tok.nul, [], by simp [jtoks], by simp, by simp⟩
  | bool b =>
      cases b with
      | false => exact ⟨Tok.fls, [], by simp [jtoks], by simp, by simp⟩
      | true => exact ⟨Tok.tru, [], by simp [jtoks], by simp, by simp⟩
  | num n => exact ⟨Tok.num n, [], by simp [jtoks], by simp, by simp⟩
  | str s => exact ⟨Tok.str s, [], by simp [jtoks], by simp, by simp⟩
  | arr xs =>
      cases xs with
      | nil => exact ⟨Tok.lbrack, [Tok.rbrack], by simp [jtoks], by simp, by simp⟩
      | cons x xs =>
          exact ⟨Tok.lbrack, jtoks x ++ jtoksArrTail xs, by simp [jtoks], by simp, by simp⟩
  | obj ms =>
      cases ms with
      | nil => exact ⟨Tok.lbrace, [Tok.rbrace], by simp [jtoks], by simp, by simp⟩
      | cons m ms =>
          exact ⟨Tok.lbrace, Tok.str m.1 :: Tok.colon :: (jtoks m.2 ++ jtoksObjTail ms),
            by simp [jtoks], by simp, by simp⟩

theorem jtoks_head_ne_rbrack (j : Json) (rest : List Tok) :
    ¬((jtoks j ++ rest).head? = some Tok.rbrack) := by
  obtain ⟨t, ts, ht, h1, _⟩ := jtoks_shape j
  rw [ht]
  simp [h1]

theorem jtoks_head_ne_rbrack_self (j : Json) : ¬(jtoks j).head? = some Tok.rbrack := by
  obtain ⟨t, ts, ht, h1, _⟩ := jtoks_shape j
  rw [ht]
  simp [h1]

theorem jtoks_ne_nil (j : Json) : jtoks j ≠ [] := by
  obtain ⟨t, ts, ht, _, _⟩ := jtoks_shape j
  rw [ht]
  simp

theorem jtoks_length_pos (j : Json) : 1 ≤ (jtoks j).length := by
  obtain ⟨t, ts, ht, _, _⟩ := jtoks_shape j
  simp [ht]

theorem jtoksArrTail_length_pos (xs : List Json) : 1 ≤ (jtoksArrTail xs).length := by
  cases xs <;> simp [jtoksArrTail]

theorem jtoksObjTail_length_pos (ms : List (String × Json)) :
    1 ≤ (jtoksObjTail ms).length := by
  cases ms <;> simp [jtoksObjTail]

mutual

theorem parseTok_jtoks : ∀ (j : Json) (fuel : Nat) (rest : List Tok),
    wfJson j = true → (jtoks j).length ≤ fuel →
    parseTokVal fuel (jtoks j ++ rest) = some (j, rest)
  | .null, fuel, rest, _, hf => by
      cases fuel with
      | zero => simp [jtoks] at hf
      | succ f => simp [jtoks, parseTokVal]
  | .bool true, fuel, rest, _, hf => by
      cases fuel with
      | zero => simp [jtoks] at hf
      | succ f => simp [jtoks, parseTokVal]
  | .bool false, fuel, rest, _, hf => by
      cases fuel with
      | zero => simp [jtoks] at hf
      | succ f => simp [jtoks, parseTokVal]
  | .num n, fuel, rest, _, hf => by
      cases fuel with
      | zero => simp [jtoks] at hf
      | succ f => simp [jtoks, parseTokVal]
  | .str s, fuel, rest, _, hf => by
      cases fuel with
      | zero => simp [jtoks] at hf
      | succ f => simp [jtoks, parseTokVal]
  | .arr [], fuel, rest, _, hf => by
      cases fuel with
      | zero => simp [jtoks] at hf
      | succ f => simp [jtoks, parseTokVal]
  | .arr (x :: xs), fuel, rest, hw, hf => by
      cases fuel with
      | zero =>
          simp [jtoks] at hf
      | succ f =>
          have hw' : wfJson x = true ∧ wfList xs = true := by
            simpa [wfJson, wfList] using hw
          have hpt := jtoksArrTail_length_pos xs
          have hpx := jtoks_length_pos x
          simp only [jtoks, List.length_cons, List.length_append] at hf
          have ihx := parseTok_jtoks x f (jtoksArrTail xs ++ rest) hw'.1 (by omega)
          have iht := parseTok_arrTail xs f rest hw'.2 (by omega)
          simp only [jtoks, List.cons_append, List.append_assoc]
          simp [parseTokVal, jtoks_head_ne_rbrack_self x, jtoks_ne_nil x, ihx, iht]
  | .obj [], fuel, rest, _, hf => by
      cases fuel with
      | zero => simp [jtoks] at hf
      | succ f => simp [jtoks, parseTokVal]
  | .obj ((k, v) :: ms), fuel, rest, hw, hf => by
      cases fuel with
      | zero =>
          simp [jtoks] at hf
      | succ f =>
          have hw' : (nodupKeys (keysOf ((k, v) :: ms)) && wfMembers ((k, v) :: ms)) =
              true := hw
          simp only [Bool.and_eq_true] at hw'
          have hwv : wfJson v = true ∧ wfMembers ms = true := by
            simpa [wfMembers] using hw'.2
          have hpt := jtoksObjTail_length_pos ms
          have hpv := jtoks_length_pos v
          simp only [jtoks, List.length_cons, List.length_append] at hf
          have ihv := parseTok_jtoks v f (jtoksObjTail ms ++ rest) hwv.1 (by omega)
          have iht := parseTok_objTail ms f rest hwv.2 (by omega)
          simp only [jtoks, List.cons_append, List.append_assoc]
          simp [parseTokVal, ihv, iht, foldl_dictSet_self _ hw'.1]
  termination_by j => sizeOf j

theorem parseTok_arrTail : ∀ (xs : List Json) (fuel : Nat) (rest : List Tok),
    wfList xs = true → (jtoksArrTail xs).length ≤ fuel →
    parseTokArrTail fuel (jtoksArrTail xs ++ rest) = some (xs, rest)
  | [], fuel, rest, _, hf => by
      cases fuel with
      | zero => simp [jtoksArrTail] at hf
      | succ f => simp [jtoksArrTail, parseTokArrTail]
  | x :: xs, fuel, rest, hw, hf => by
      cases fuel with
      | zero =>
          simp [jtoksArrTail] at hf
      | succ f =>
          have hw' : wfJson x = true ∧ wfList xs = true := by
            simpa [wfList] using hw
          have hpt := jtoksArrTail_length_pos xs
          have hpx := jtoks_length_pos x
          simp only [jtoksArrTail, List.length_cons, List.length_append] at hf
          have ihx := parseTok_jtoks x f (jtoksArrTail xs ++ rest) hw'.1 (by omega)
          have iht := parseTok_arrTail xs f rest hw'.2 (by omega)
          simp only [jtoksArrTail, List.cons_append, List.append_assoc]
          simp [parseTokArrTail, ihx, iht]
  termination_by xs => sizeOf xs

theorem parseTok_objTail : ∀ (ms : List (String × Json)) (fuel : Nat) (rest : List Tok),
    wfMembers ms = true → (jtoksObjTail ms).length ≤ fuel →
    parseTokObjTail fuel (jtoksObjTail ms ++ rest) = some (ms, rest)
  | [], fuel, rest, _, hf => by
      cases fuel with
      | zero => simp [jtoksObjTail] at hf
      | succ f => simp [jtoksObjTail, parseTokObjTail]
  | (k, v) :: ms, fuel, rest, hw, hf => by
      cases fuel with
      | zero =>
          simp [jtoksObjTail] at hf
      | succ f =>
          have hw' : wfJson v = true ∧ wfMembers ms = true := by
            simpa [wfMembers] using hw
          have hpt := jtoksObjTail_length_pos ms
          have hpv := jtoks_length_pos v
          simp only [jtoksObjTail, List.length_cons, List.length_append] at hf
          have ihv := parseTok_jtoks v f (jtoksObjTail ms ++ rest) hw'.1 (by omega)
          have iht := parseTok_objTail ms f rest hw'.2 (by omega)
          simp only [jtoksObjTail, List.cons_append, List.append_assoc]
          simp [parseTokObjTail, ihv, iht]
  termination_by ms => sizeOf ms

end

/-! ### The round trip: parsing serializer output recovers the value -/

theorem intChars_length_pos (n : Int) : 1 ≤ (intChars n).length := by
  unfold intChars
  split
  · simp
  · have h := natDigits_ne_nil n.toNat
    cases hnd : natDigits n.toNat with
    | nil => exact absurd hnd h
    | cons d ds => simp [hnd]

theorem strLit_length (s : String) :
    (strLit s).length = (escapeStr s.data).length + 2 := by
  simp [strLit]

mutual

theorem jtoks_le_dump : ∀ j : Json, (jtoks j).length ≤ (dumpJson j).length
  | .null => by simp [jtoks, dumpJson]
  | .bool true => by simp [jtoks, dumpJson]
  | .bool false => by simp [jtoks, dumpJson]
  | .num n => by
      have := intChars_length_pos n
      simp only [jtoks, dumpJson, List.length_cons, List.length_nil]
      omega
  | .str s => by
      have := strLit_length s
      simp only [jtoks, dumpJson, List.length_cons, List.length_nil]
      omega
  | .arr [] => by simp [jtoks, dumpJson]
  | .arr (x :: xs) => by
      have h1 := jtoks_le_dump x
      have h2 := jtoksArrTail_le_dump xs
      simp only [jtoks, dumpJson, List.length_cons, List.length_append]
      omega
  | .obj [] => by simp [jtoks, dumpJson]
  | .obj ((k, v) :: ms) => by
      have h1 := jtoks_le_dump v
      have h2 := jtoksObjTail_le_dump ms
      have h3 := strLit_length k
      simp only [jtoks, dumpJson, List.length_cons, List.length_append]
      omega
  termination_by j => sizeOf j

theorem jtoksArrTail_le_dump :
    ∀ xs : List Json, (jtoksArrTail xs).length ≤ (dumpArrTail xs).length
  | [] => by simp [jtoksArrTail, dumpArrTail]
  | x :: xs => by
      have h1 := jtoks_le_dump x
      have h2 := jtoksArrTail_le_dump xs
      simp only [jtoksArrTail, dumpArrTail, List.length_cons, List.length_append]
      omega
  termination_by xs => sizeOf xs

theorem jtoksObjTail_le_dump :
    ∀ ms : List (String × Json), (jtoksObjTail ms).length ≤ (dumpObjTail ms).length
  | [] => by simp [jtoksObjTail, dumpObjTail]
  | (k, v) :: ms => by
      have h1 := jtoks_le_dump v
      have h2 := jtoksObjTail_le_dump ms
      have h3 := strLit_length k
      simp only [jtoksObjTail, dumpObjTail, List.length_cons, List.length_append]
      omega
  termination_by ms => sizeOf ms

end

mutual

theorem jtoks_le_dumpInd : ∀ (j : Json) (d : Nat),
    (jtoks j).length ≤ (dumpInd d j).length
  | .null, _ => by simp [jtoks, dumpInd]
  | .bool true, _ => by simp [jtoks, dumpInd]
  | .bool false, _ => by simp [jtoks, dumpInd]
  | .num n, _ => by
      have := intChars_length_pos n
      simp only [jtoks, dumpInd, List.length_cons, List.length_nil]
      omega
  | .str s, _ => by
      have := strLit_length s
      simp only [jtoks, dumpInd, List.length_cons, List.length_nil]
      omega
  | .arr [], _ => by simp [jtoks, dumpInd]
  | .arr (x :: xs), d => by
      have h1 := jtoks_le_dumpInd x (d + 2)
      have h2 := jtoksArrTail_le_dumpInd d xs
      simp only [jtoks, dumpInd, List.length_cons, List.length_append]
      omega
  | .obj [], _ => by simp [jtoks, dumpInd]
  | .obj ((k, v) :: ms), d => by
      have h1 := jtoks_le_dumpInd v (d + 2)
      have h2 := jtoksObjTail_le_dumpInd d ms
      have h3 := strLit_length k
      simp only [jtoks, dumpInd, List.length_cons, List.length_append]
      omega
  termination_by j => sizeOf j

theorem jtoksArrTail_le_dumpInd : ∀ (d : Nat) (xs : List Json),
    (jtoksArrTail xs).length ≤ (dumpIndArrTail d xs).length
  | d, [] => by simp [jtoksArrTail, dumpIndArrTail]
  | d, x :: xs => by
      have h1 := jtoks_le_dumpInd x (d + 2)
      have h2 := jtoksArrTail_le_dumpInd d xs
      simp only [jtoksArrTail, dumpIndArrTail, List.length_cons, List.length_append]
      omega
  termination_by _ xs => sizeOf xs

theorem jtoksObjTail_le_dumpInd : ∀ (d : Nat) (ms : List (String × Json)),
    (jtoksObjTail ms).length ≤ (dumpIndObjTail d ms).length
  | d, [] => by simp [jtoksObjTail, dumpIndObjTail]
  | d, (k, v) :: ms => by
      have h1 := jtoks_le_dumpInd v (d + 2)
      have h2 := jtoksObjTail_le_dumpInd d ms
      have h3 := strLit_length k
      simp only [jtoksObjTail, dumpIndObjTail, List.length_cons, List.length_append]
      omega
  termination_by _ ms => sizeOf ms

end

theorem lexAll_dump (j : Json) : lexAll (dumpJson j) = some (jtoks j) := by
  have hle := jtoks_le_dump j
  unfold lexAll
  rw [show dumpJson j = dumpJson j ++ [] from (List.append_nil _).symm]
  have hidx : (dumpJson j ++ []).length + 1 =
      (((dumpJson j).length - (jtoks j).length) + 1) + (jtoks j).length := by
    simp
    omega
  rw [hidx, lexF_dump j _ [] numBoundary_nil, lexF_nil]
  simp

theorem lexAll_dumpInd (j : Json) (d : Nat) :
    lexAll (dumpInd d j) = some (jtoks j) := by
  have hle := jtoks_le_dumpInd j d
  unfold lexAll
  rw [show dumpInd d j = dumpInd d j ++ [] from (List.append_nil _).symm]
  have hidx : (dumpInd d j ++ []).length + 1 =
      (((dumpInd d j).length - (jtoks j).length) + 1) + (jtoks j).length := by
    simp
    omega
  rw [hidx, lexF_dumpInd j d _ [] numBoundary_nil, lexF_nil]
  simp

theorem parseJson_dumps {j : Json} (h : wfJson j = true) :
    parseJson (json_dumps j) = some j := by
  unfold parseJson json_dumps
  rw [show (String.mk (dumpJson j)).data = dumpJson j from rfl, lexAll_dump]
  have hres := parseTok_jtoks j ((jtoks j).length + 1) [] h (by omega)
  rw [List.append_nil] at hres
  simp [hres]

theorem parseJson_dumps_indent2 {j : Json} (h : wfJson j = true) :
    parseJson (json_dumps_indent2 j) = some j := by
  unfold parseJson json_dumps_indent2
  rw [show (String.mk (dumpInd 0 j)).data = dumpInd 0 j from rfl, lexAll_dumpInd]
  have hres := parseTok_jtoks j ((jtoks j).length + 1) [] h (by omega)
  rw [List.append_nil] at hres
  simp [hres]

/-! ### Dict lemmas and well-formedness of parsed values -/

theorem dictGet_cons (k₀ : String) (v₀ : Json) (rest : List (String × Json))
    (k : String) :
    dictGet ((k₀, v₀) :: rest) k = if k₀ == k then v₀ else dictGet rest k := by
  simp only [dictGet, List.find?]
  cases hbeq : (k₀ == k) <;> simp [hbeq]

theorem dictGet_dictSet_self (m : List (String × Json)) (k : String) (v : Json) :
    dictGet (dictSet m k v) k = v := by
  induction m with
  | nil => simp [dictSet, dictGet_cons]
  | cons p rest ih =>
      obtain ⟨k', v'⟩ := p
      by_cases h : k' = k
      · simp [dictSet, h, dictGet_cons]
      · simp only [dictSet, beq_iff_eq, if_neg h]
        rw [dictGet_cons]
        simp only [if_neg (by simpa using h : ¬(k' == k) = true)]
        exact ih

theorem dictGet_dictSet_ne (m : List (String × Json)) {k k' : String} (v : Json)
    (h : k' ≠ k) : dictGet (dictSet m k v) k' = dictGet m k' := by
  have hkk : ¬(k == k') = true := by simpa using fun he => h he.symm
  induction m with
  | nil =>
      simp only [dictSet]
      rw [dictGet_cons]
      simp [hkk, dictGet]
  | cons p rest ih =>
      obtain ⟨k₀, v₀⟩ := p
      by_cases h0 : k₀ = k
      · subst h0
        simp only [dictSet]
        rw [if_pos (by simp : ((k₀ == k₀) = true)), dictGet_cons, dictGet_cons]
        simp [hkk]
      · simp only [dictSet, beq_iff_eq, if_neg h0]
        rw [dictGet_cons, dictGet_cons]
        cases hbeq : (k₀ == k') <;> simp [ih]

theorem keysOf_dictSet_mem {m : List (String × Json)} {k : String} (v : Json)
    (h : k ∈ keysOf m) : keysOf (dictSet m k v) = keysOf m := by
  induction m with
  | nil => simp [keysOf] at h
  | cons p rest ih =>
      obtain ⟨k', v'⟩ := p
      by_cases h0 : k' = k
      · simp [dictSet, h0, keysOf]
      · have hmem : k ∈ keysOf rest := by
          rcases (by simpa [keysOf] using h : k = k' ∨ k ∈ keysOf rest) with h1 | h1
          · exact absurd h1.symm h0
          · exact h1
        simp only [dictSet, beq_iff_eq, if_neg h0]
        simp only [keysOf, List.map_cons, List.cons.injEq, true_and]
        simpa [keysOf] using ih hmem

theorem nodupKeys_dictSet {m : List (String × Json)} (k : String) (v : Json)
    (h : nodupKeys (keysOf m) = true) : nodupKeys (keysOf (dictSet m k v)) = true := by
  by_cases hmem : k ∈ keysOf m
  · rwa [keysOf_dictSet_mem v hmem]
  · rw [dictSet_not_mem v hmem, keysOf_append]
    rw [nodupKeys_iff] at h ⊢
    simp only [keysOf, List.map_cons, List.map_nil]
    rw [List.nodup_append]
    exact ⟨h, List.nodup_singleton k, by
      intro a ha hb
      simp only [List.mem_singleton] at hb
      exact hmem (hb ▸ ha)⟩

theorem wfMembers_dictSet {m : List (String × Json)} {k : String} {v : Json}
    (hm : wfMembers m = true) (hv : wfJson v = true) :
    wfMembers (dictSet m k v) = true := by
  induction m with
  | nil => simp [dictSet, wfMembers, hv]
  | cons p rest ih =>
      obtain ⟨k', v'⟩ := p
      simp only [wfMembers, Bool.and_eq_true] at hm
      by_cases h0 : k' = k
      · simp [dictSet, h0, wfMembers, hv, hm.2]
      · simp only [dictSet, beq_iff_eq, if_neg h0]
        simp [wfMembers, hm.1, ih hm.2]

theorem wfMembers_mem {m : List (String × Json)} {p : String × Json}
    (hm : wfMembers m = true) (hp : p ∈ m) : wfJson p.2 = true := by
  induction m with
  | nil => simp at hp
  | cons q rest ih =>
      simp only [wfMembers, Bool.and_eq_true] at hm
      rcases List.mem_cons.1 hp with h | h
      · exact h ▸ hm.1
      · exact ih hm.2 h

theorem wfJson_dictGet {m : List (String × Json)} (k : String)
    (hm : wfJson (.obj m) = true) : wfJson (dictGet m k) = true := by
  simp only [wfJson, Bool.and_eq_true] at hm
  unfold dictGet
  cases hfind : m.find? (fun p => p.1 == k) with
  | none => simp [wfJson]
  | some p => exact wfMembers_mem hm.2 (List.mem_of_find?_eq_some hfind)

theorem dictGet_not_mem {m : List (String × Json)} {k : String}
    (h : k ∉ keysOf m) : dictGet m k = Json.null := by
  unfold dictGet
  cases hfind : m.find? (fun p => p.1 == k) with
  | none => rfl
  | some p =>
      have hp := List.mem_of_find?_eq_some hfind
      have heq : p.1 = k := by simpa using List.find?_some hfind
      exact absurd (heq ▸ List.mem_map_of_mem Prod.fst hp) h

theorem wfJson_obj_foldl {pairs acc : List (String × Json)}
    (hacc : wfJson (.obj acc) = true) (hp : wfMembers pairs = true) :
    wfJson (.obj (pairs.foldl (fun a m => dictSet a m.1 m.2) acc)) = true := by
  induction pairs generalizing acc with
  | nil => simpa using hacc
  | cons q rest ih =>
      obtain ⟨k, v⟩ := q
      simp only [wfMembers, Bool.and_eq_true] at hp
      simp only [List.foldl_cons]
      refine ih ?_ hp.2
      simp only [wfJson, Bool.and_eq_true] at hacc ⊢
      exact ⟨nodupKeys_dictSet k v hacc.1, wfMembers_dictSet hacc.2 hp.1⟩

theorem parseTok_wf (fuel : Nat) :
    (∀ ts j r, parseTokVal fuel ts = some (j, r) → wfJson j = true) ∧
    (∀ ts xs r, parseTokArrTail fuel ts = some (xs, r) → wfList xs = true) ∧
    (∀ ts ms r, parseTokObjTail fuel ts = some (ms, r) → wfMembers ms = true) := by
  induction fuel with
  | zero =>
      refine ⟨?_, ?_, ?_⟩ <;> intro ts a r h <;> simp [parseTokVal, parseTokArrTail,
        parseTokObjTail] at h
  | succ f ih =>
      obtain ⟨ih1, ih2, ih3⟩ := ih
      refine ⟨?_, ?_, ?_⟩
      · intro ts j r h
        simp only [parseTokVal] at h
        split at h
        · simp only [Option.some.injEq, Prod.mk.injEq] at h
          obtain ⟨rfl, rfl⟩ := h
          simp [wfJson]
        · simp only [Option.some.injEq, Prod.mk.injEq] at h
          obtain ⟨rfl, rfl⟩ := h
          simp [wfJson]
        · simp only [Option.some.injEq, Prod.mk.injEq] at h
          obtain ⟨rfl, rfl⟩ := h
          simp [wfJson]
        · simp only [Option.some.injEq, Prod.mk.injEq] at h
          obtain ⟨rfl, rfl⟩ := h
          simp [wfJson]
        · simp only [Option.some.injEq, Prod.mk.injEq] at h
          obtain ⟨rfl, rfl⟩ := h
          simp [wfJson]
        · split at h
          · simp only [Option.some.injEq, Prod.mk.injEq] at h
            obtain ⟨rfl, rfl⟩ := h
            simp [wfJson, wfList]
          · split at h
            · exact absurd h (by simp)
            · split at h
              · exact absurd h (by simp)
              · simp only [Option.some.injEq, Prod.mk.injEq] at h
                obtain ⟨rfl, rfl⟩ := h
                have hwx := ih1 _ _ _ (by assumption)
                have hwxs := ih2 _ _ _ (by assumption)
                simp [wfJson, wfList, hwx, hwxs]
        · split at h
          · simp only [Option.some.injEq, Prod.mk.injEq] at h
            obtain ⟨rfl, rfl⟩ := h
            simp [wfJson, nodupKeys, wfMembers, keysOf]
          · split at h
            · split at h
              · exact absurd h (by simp)
              · split at h
                · exact absurd h (by simp)
                · simp only [Option.some.injEq, Prod.mk.injEq] at h
                  obtain ⟨rfl, rfl⟩ := h
                  have hwv := ih1 _ _ _ (by assumption)
                  have hwms := ih3 _ _ _ (by assumption)
                  refine wfJson_obj_foldl
                    (by simp [wfJson, nodupKeys, wfMembers, keysOf]) ?_
                  simp [wfMembers, hwv, hwms]
            · exact absurd h (by simp)
        · exact absurd h (by simp)
      · intro ts xs r h
        simp only [parseTokArrTail] at h
        split at h
        · simp only [Option.some.injEq, Prod.mk.injEq] at h
          obtain ⟨rfl, rfl⟩ := h
          simp [wfList]
        · split at h
          · exact absurd h (by simp)
          · split at h
            · exact absurd h (by simp)
            · simp only [Option.some.injEq, Prod.mk.injEq] at h
              obtain ⟨rfl, rfl⟩ := h
              have hwx := ih1 _ _ _ (by assumption)
              have hwxs := ih2 _ _ _ (by assumption)
              simp [wfList, hwx, hwxs]
        · exact absurd h (by simp)
      · intro ts ms r h
        simp only [parseTokObjTail] at h
        split at h
        · simp only [Option.some.injEq, Prod.mk.injEq] at h
          obtain ⟨rfl, rfl⟩ := h
          simp [wfMembers]
        · split at h
          · exact absurd h (by simp)
          · split at h
            · exact absurd h (by simp)
            · simp only [Option.some.injEq, Prod.mk.injEq] at h
              obtain ⟨rfl, rfl⟩ := h
              have hwv := ih1 _ _ _ (by assumption)
              have hwms := ih3 _ _ _ (by assumption)
              simp [wfMembers, hwv, hwms]
        · exact absurd h (by simp)

theorem parseJson_wf {s : String} {j : Json} (h : parseJson s = some j) :
    wfJson j = true := by
  unfold parseJson at h
  split at h
  · exact absurd h (by simp)
  · split at h
    · simp only [Option.some.injEq] at h
      subst h
      rename_i ts hlex j' r hpv
      exact (parseTok_wf (ts.length + 1)).1 _ _ _ hpv
    · exact absurd h (by simp)

/-! ### The validator's regex, characterized declaratively -/

theorem colonTail_iff (rest : List Char) :
    colonTail rest = true ↔
      ∃ w d tl, rest = ':' :: w :: d :: tl ∧ pyIsSpace w = true ∧ d ≠ '\n' := by
  constructor
  · intro h
    unfold colonTail at h
    split at h
    · rename_i w d tl
      simp only [Bool.and_eq_true, Bool.not_eq_true', beq_eq_false_iff_ne] at h
      exact ⟨w, d, tl, rfl, h.1, h.2⟩
    · exact absurd h (by simp)
  · rintro ⟨w, d, tl, rfl, hw, hd⟩
    simp [colonTail, hw, hd]

theorem afterParen_complete :
    ∀ (inner : List Char) (tl : List Char) (seen : Bool),
    (seen = true ∨ inner ≠ []) → '\n' ∉ inner → colonTail tl = true →
    afterParen seen (inner ++ ')' :: tl) = true
  | [], tl, seen, hseen, _, htl => by
      rcases hseen with h | h
      · subst h
        simp [afterParen, htl]
      · exact absurd rfl h
  | c :: inner, tl, seen, _, hnl, htl => by
      simp only [List.mem_cons, not_or] at hnl
      have hrec := afterParen_complete inner tl true (Or.inl rfl) hnl.2 htl
      have hc : ¬c = '\n' := fun he => hnl.1 he.symm
      simp [afterParen, hrec, hc]

theorem afterParen_sound :
    ∀ (rest : List Char) (seen : Bool), afterParen seen rest = true →
    ∃ inner tl, rest = inner ++ ')' :: tl ∧ (seen = true ∨ inner ≠ []) ∧
      '\n' ∉ inner ∧ colonTail tl = true
  | [], seen, h => by simp [afterParen] at h
  | c :: rest, seen, h => by
      simp only [afterParen, Bool.or_eq_true, Bool.and_eq_true] at h
      rcases h with ⟨⟨hc, hseen⟩, htail⟩ | ⟨hc, hrec⟩
      · have hc' : c = ')' := by simpa using hc
        subst hc'
        exact ⟨[], rest, rfl, Or.inl hseen, by simp, htail⟩
      · obtain ⟨inner, tl, rfl, _, hnl, htl⟩ := afterParen_sound rest true hrec
        have hc' : c ≠ '\n' := by simpa using hc
        have hc2 : ¬('\n' = c) := fun he => hc' he.symm
        exact ⟨c :: inner, tl, rfl, Or.inr (by simp), by simp [hc2, hnl], htl⟩

theorem stripPrefixCI_iff :
    ∀ (t cs rest : List Char), t.map Char.toLower = t →
    (stripPrefixCI t cs = some rest ↔ ∃ pre, cs = pre ++ rest ∧ pre.map Char.toLower = t)
  | [], cs, rest, _ => by
      constructor
      · intro h
        simp only [stripPrefixCI, Option.some.injEq] at h
        exact ⟨[], by simp [h], by simp⟩
      · rintro ⟨pre, rfl, hpre⟩
        have : pre = [] := by simpa using congrArg List.length hpre
        subst this
        simp [stripPrefixCI]
  | p :: ps, [], rest, _ => by
      constructor
      · intro h
        simp [stripPrefixCI] at h
      · rintro ⟨pre, hcs, hpre⟩
        cases pre with
        | nil => simp at hpre
        | cons c pre' => simp at hcs
  | p :: ps, c :: cs, rest, ht => by
      simp only [List.map_cons, List.cons.injEq] at ht
      constructor
      · intro h
        simp only [stripPrefixCI] at h
        split at h
        · rename_i hcp
          obtain ⟨pre', rfl, hpre'⟩ := (stripPrefixCI_iff ps cs rest ht.2).1 h
          refine ⟨c :: pre', rfl, ?_⟩
          simp only [List.map_cons, List.cons.injEq]
          exact ⟨by rw [hcp, ht.1], hpre'⟩
        · exact absurd h (by simp)
      · rintro ⟨pre, hcs, hpre⟩
        cases pre with
        | nil => simp at hpre
        | cons c' pre' =>
            simp only [List.cons_append, List.cons.injEq] at hcs
            obtain ⟨rfl, rfl⟩ := hcs
            simp only [List.map_cons, List.cons.injEq] at hpre
            have hcp : c.toLower = p.toLower := by rw [hpre.1, ht.1]
            simp only [stripPrefixCI, if_pos hcp]
            exact (stripPrefixCI_iff ps (pre' ++ rest) rest ht.2).2 ⟨pre', rfl, hpre.2⟩

theorem commitTypes_lower : ∀ t ∈ commitTypes, t.map Char.toLower = t := by
  decide

theorem commitRegexMatches_iff (cs : List Char) :
    commitRegexMatches cs = true ↔ CommitGrammar cs := by
  unfold commitRegexMatches CommitGrammar
  rw [List.any_eq_true]
  constructor
  · rintro ⟨t, ht, hmatch⟩
    refine ⟨t, ht, ?_⟩
    have htl := commitTypes_lower t ht
    cases hstrip : stripPrefixCI t cs with
    | none => rw [hstrip] at hmatch; simp at hmatch
    | some rest =>
        rw [hstrip] at hmatch
        simp only [Bool.or_eq_true] at hmatch
        obtain ⟨pre, rfl, hpre⟩ := (stripPrefixCI_iff t cs rest htl).1 hstrip
        refine ⟨pre, rest, rfl, hpre, ?_⟩
        rcases hmatch with hct | hscope
        · obtain ⟨w, d, tl, rfl, hw, hd⟩ := (colonTail_iff rest).1 hct
          exact Or.inl ⟨w, d, tl, rfl, hw, hd⟩
        · unfold CommitTail
          split at hscope
          · rename_i rest'
            obtain ⟨inner, tl, rfl, hne, hnl, htl'⟩ := afterParen_sound rest' false hscope
            obtain ⟨w, d, tl2, rfl, hw, hd⟩ := (colonTail_iff tl).1 htl'
            refine Or.inr ⟨inner, w, d, tl2, rfl, ?_, hnl, hw, hd⟩
            rcases hne with h | h
            · exact absurd h (by simp)
            · exact h
          · exact absurd hscope (by simp)
  · rintro ⟨t, ht, pre, rest, rfl, hpre, htail⟩
    refine ⟨t, ht, ?_⟩
    have htl := commitTypes_lower t ht
    rw [(stripPrefixCI_iff t (pre ++ rest) rest htl).2 ⟨pre, rfl, hpre⟩]
    rcases htail with ⟨w, d, tl, rfl, hw, hd⟩ | ⟨inner, w, d, tl, rfl, hne, hnl, hw, hd⟩
    · simp [colonTail, hw, hd]
    · have hap := afterParen_complete inner (':' :: w :: d :: tl) false (Or.inr hne) hnl
        (by simp [colonTail, hw, hd])
      simp [hap]

/-! ### Store helper lemmas for the claims -/

theorem wf_obj_dictSet {m : List (String × Json)} {k : String} {v : Json}
    (hm : wfJson (.obj m) = true) (hv : wfJson v = true) :
    wfJson (.obj (dictSet m k v)) = true := by
  simp only [wfJson, Bool.and_eq_true] at hm ⊢
  exact ⟨nodupKeys_dictSet k v hm.1, wfMembers_dictSet hm.2 hv⟩

theorem write_state (s : String) (m : List (String × Json)) (k : String) (v : Json)
    (h : parseJson s = some (.obj m)) :
    (write_shared_memory (.content s) k v).1 =
      .content (json_dumps_indent2 (.obj (dictSet m k v))) := by
  simp [write_shared_memory, ensure_memory_file, json_load, h]

theorem read_state_none (s : String) (m : List (String × Json))
    (h : parseJson s = some (.obj m)) :
    (read_shared_memory (.content s) none).2 = .ok (json_dumps (.obj m)) := by
  simp [read_shared_memory, ensure_memory_file, json_load, h]

theorem read_state_key (s : String) (m : List (String × Json)) (k : String)
    (h : parseJson s = some (.obj m)) :
    (read_shared_memory (.content s) (some k)).2 =
      .ok (json_dumps (.obj [(k, dictGet m k)])) := by
  simp [read_shared_memory, ensure_memory_file, json_load, h]

theorem dictGet_foldl_lastWins :
    ∀ (ws m : List (String × Json)) (k : String),
    dictGet (ws.foldl (fun a w => dictSet a w.1 w.2) m) k =
      (lastWins ws k).getD (dictGet m k)
  | [], m, k => by simp [lastWins]
  | (k₀, v₀) :: ws, m, k => by
      simp only [List.foldl_cons, lastWins]
      rw [dictGet_foldl_lastWins ws (dictSet m k₀ v₀) k]
      cases hlw : lastWins ws k with
      | some v' => simp
      | none =>
          by_cases hk : k₀ = k
          · subst hk
            simp [dictGet_dictSet_self]
          · simp [hk, dictGet_dictSet_ne m v₀ (fun he => hk he.symm)]

theorem writeSeq_read :
    ∀ (ws : List (String × Json)) (s : String) (m : List (String × Json)),
    parseJson s = some (.obj m) → wfMembers ws = true →
    (read_shared_memory (writeSeq (.content s) ws) none).2 =
      .ok (json_dumps (.obj (ws.foldl (fun a w => dictSet a w.1 w.2) m)))
  | [], s, m, hs, _ => by
      simpa [writeSeq] using read_state_none s m hs
  | (k, v) :: ws, s, m, hs, hw => by
      simp only [wfMembers, Bool.and_eq_true] at hw
      have hwm' : wfJson (.obj (dictSet m k v)) = true :=
        wf_obj_dictSet (parseJson_wf hs) hw.1
      simp only [writeSeq, List.foldl_cons]
      rw [write_state s m k v hs]
      exact writeSeq_read ws _ (dictSet m k v) (parseJson_dumps_indent2 hwm') hw.2

/-! ### The claims -/

/-- C1 (counterexample): the claim says a read over a backing file whose text
cannot be parsed as JSON does not raise and returns the empty-object result;
the code propagates `json.JSONDecodeError` from `json.load`, both for a
whole-store read over the text `"not json"` and for a keyed read over the
empty file. -/
theorem c1_counterexample :
    (read_shared_memory (.content "not json") none).2 = .error .jsonDecodeError ∧
    (read_shared_memory (.content "") (some "last_known_commit")).2 =
      .error .jsonDecodeError := by
  decide

/-- C1 (amended): a read self-heals only a MISSING backing file (it is
created holding `{}` and the read returns the corresponding result); if the
file exists but its text cannot be parsed as JSON (an empty file included),
`read_shared_memory` raises `json.JSONDecodeError` — with or without a key;
the silent reset of unparsable content to `{}` happens only in
`initialize_shared_memory` at startup. -/
theorem c1_read_unparsable_raises :
    (∀ s key, parseJson s = none →
      (read_shared_memory (.content s) key).2 = .error .jsonDecodeError) ∧
    read_shared_memory .absent none = (.content "{}", .ok "{}") ∧
    (∀ k, read_shared_memory .absent (some k) =
      (.content "{}", .ok (json_dumps (.obj [(k, .null)])))) ∧
    (∀ s, parseJson (pyStrip s) = none →
      initialize_shared_memory (.content s) = .content "{}") := by
  refine ⟨?_, by decide, ?_, ?_⟩
  · intro s key h
    simp [read_shared_memory, ensure_memory_file, json_load, h]
  · intro k
    simp [read_shared_memory, ensure_memory_file, json_load,
      show parseJson "{}" = some (.obj []) from by decide, dictGet, List.find?]
  · intro s h
    by_cases hstrip : pyStrip s = ""
    · simp [initialize_shared_memory, ensure_memory_file, hstrip]
    · simp [initialize_shared_memory, ensure_memory_file, hstrip, h]

/-- C1 (witness): the amended theorem at the concrete text `"oops"`. -/
theorem c1_witness :
    (read_shared_memory (.content "oops") none).2 = .error .jsonDecodeError :=
  c1_read_unparsable_raises.1 "oops" none (by decide)

/-- C2: starting from a backing file holding any valid JSON object, a
`write_shared_memory(k, v)` followed by `read_shared_memory(k)` returns the
JSON text of the single-entry mapping `{k: v}`, for every well-formed JSON
value `v` (a value coming from Python is always well formed: a Python dict
cannot carry a duplicate key). -/
theorem c2_write_then_read (s : String) (m : List (String × Json)) (k : String)
    (v : Json) (hs : parseJson s = some (.obj m)) (hv : wfJson v = true) :
    (read_shared_memory (write_shared_memory (.content s) k v).1 (some k)).2 =
      .ok (json_dumps (.obj [(k, v)])) := by
  have hwm' : wfJson (.obj (dictSet m k v)) = true :=
    wf_obj_dictSet (parseJson_wf hs) hv
  rw [write_state s m k v hs,
    read_state_key _ (dictSet m k v) k (parseJson_dumps_indent2 hwm'),
    dictGet_dictSet_self]

/-- C2 (witness): write then read of the key `"x"` on an empty store. -/
theorem c2_witness :
    (read_shared_memory (write_shared_memory (.content "{}") "x" (.num 1)).1
      (some "x")).2 = .ok (json_dumps (.obj [("x", .num 1)])) :=
  c2_write_then_read "{}" [] "x" (.num 1) (by decide) (by decide)

/-- C3: a write binds its key to the new value and leaves every other key's
value unchanged (frame); consequently a whole-store read after any sequence
of writes returns the stored mapping, whose value at each key is the last
value written to it, and the initial value where the key was never
written (last-write-wins union). -/
theorem c3_frame_and_last_write_wins (s : String) (m : List (String × Json))
    (hs : parseJson s = some (.obj m)) :
    (∀ k v k', wfJson v = true → k' ≠ k →
      (read_shared_memory (write_shared_memory (.content s) k v).1 (some k)).2 =
        .ok (json_dumps (.obj [(k, v)])) ∧
      (read_shared_memory (write_shared_memory (.content s) k v).1 (some k')).2 =
        .ok (json_dumps (.obj [(k', dictGet m k')]))) ∧
    (∀ ws, wfMembers ws = true →
      (read_shared_memory (writeSeq (.content s) ws) none).2 =
        .ok (json_dumps (.obj (ws.foldl (fun a w => dictSet a w.1 w.2) m))) ∧
      ∀ k, dictGet (ws.foldl (fun a w => dictSet a w.1 w.2) m) k =
        (lastWins ws k).getD (dictGet m k)) := by
  constructor
  · intro k v k' hv hk'
    have hwm' : wfJson (.obj (dictSet m k v)) = true :=
      wf_obj_dictSet (parseJson_wf hs) hv
    rw [write_state s m k v hs,
      read_state_key _ (dictSet m k v) k (parseJson_dumps_indent2 hwm'),
      read_state_key _ (dictSet m k v) k' (parseJson_dumps_indent2 hwm'),
      dictGet_dictSet_self, dictGet_dictSet_ne m v hk']
    exact ⟨rfl, rfl⟩
  · intro ws hw
    exact ⟨writeSeq_read ws s m hs hw, fun k => dictGet_foldl_lastWins ws m k⟩

/-- C3 (witness): on the empty store, after writing `b := 7`, reading `"a"`
still yields null; and after the sequence `a := 1; a := 2`, a whole-store
read returns `{"a": 2}`. -/
theorem c3_witness :
    (read_shared_memory (write_shared_memory (.content "{}") "b" (.num 7)).1
      (some "a")).2 = .ok (json_dumps (.obj [("a", .null)])) ∧
    (read_shared_memory (writeSeq (.content "{}") [("a", .num 1), ("a", .num 2)])
      none).2 = .ok (json_dumps (.obj [("a", .num 2)])) := by
  constructor
  · have h := ((c3_frame_and_last_write_wins "{}" [] (by decide)).1 "b" (.num 7) "a"
      (by decide) (by decide)).2
    rwa [show dictGet [] "a" = Json.null from by decide] at h
  · have h := ((c3_frame_and_last_write_wins "{}" [] (by decide)).2
      [("a", .num 1), ("a", .num 2)] (by decide)).1
    rwa [show ([("a", Json.num 1), ("a", Json.num 2)].foldl
      (fun a w => dictSet a w.1 w.2) ([] : List (String × Json))) =
        [("a", Json.num 2)] from by decide] at h

/-- C4 (counterexample): the claim requires `valid=true` exactly when the
trimmed message matches `type[(scope)]: description` with a colon-and-SPACE
separator; on `"feat:\tx"` (colon and TAB) the code returns `valid=true`
because the regex separator is `\s`, while the claim's grammar (the
refinement-side `specCommitMatches`) rejects it. -/
theorem c4_counterexample :
    validate_commit_message "feat:\tx" = json_dumps (.obj [("valid", .bool true)]) ∧
    specCommitMatches (pyStrip "feat:\tx").data = false := by
  decide

/-- C4 (amended): `validate_commit_message` returns `valid=true` exactly when
the trimmed message starts with one of the eight types (case-insensitively),
optionally followed by a non-empty newline-free parenthesized scope, then a
colon, ONE whitespace character (space, tab, newline, ...), and at least one
non-newline character, with arbitrary trailing content (prefix match); on
mismatch it returns `valid=false` with the fixed non-empty remediation hint,
and it never raises. -/
theorem c4_validator (message : String) :
    (validate_commit_message message = json_dumps (.obj [("valid", .bool true)]) ↔
      CommitGrammar (pyStrip message).data) ∧
    (¬CommitGrammar (pyStrip message).data →
      validate_commit_message message =
        json_dumps (.obj [("valid", .bool false), ("reason", .str commitHint)])) ∧
    commitHint ≠ "" := by
  have hne : json_dumps (.obj [("valid", .bool false), ("reason", .str commitHint)]) ≠
      json_dumps (.obj [("valid", .bool true)]) := by decide
  by_cases hm : commitRegexMatches (pyStrip message).data = true
  · have hg := (commitRegexMatches_iff _).1 hm
    refine ⟨?_, fun hng => absurd hg hng, by decide⟩
    constructor
    · exact fun _ => hg
    · intro _
      simp [validate_commit_message, hm]
  · have hg : ¬CommitGrammar (pyStrip message).data :=
      fun hgr => hm ((commitRegexMatches_iff _).2 hgr)
    refine ⟨?_, fun _ => by simp [validate_commit_message, hm], by decide⟩
    constructor
    · intro heq
      unfold validate_commit_message at heq
      rw [if_neg hm] at heq
      exact absurd heq hne
    · intro hgr
      exact absurd hgr hg

/-- C4 (witness): the amended theorem at `"added stuff"`, which the grammar
rejects, so the validator returns the fixed hint. -/
theorem c4_witness :
    validate_commit_message "added stuff" =
      json_dumps (.obj [("valid", .bool false), ("reason", .str commitHint)]) :=
  (c4_validator "added stuff").2.1 (fun hg =>
    absurd ((commitRegexMatches_iff _).2 hg) (by decide))

/-- C5 (counterexample): the claim says `ensure_memory_file` guarantees on
return that the file contains a valid JSON object; on a pre-existing file
holding `"garbage"` it returns with the file unchanged, and that text does
not parse as JSON at all. -/
theorem c5_counterexample :
    ensure_memory_file (.content "garbage") = .content "garbage" ∧
    parseJson "garbage" = none := by
  decide

/-- C5 (amended): `ensure_memory_file` guarantees only EXISTENCE: on return
the backing file exists; when it was missing it is created holding `{}`
(which parses to the empty JSON object), pre-existing content is left
untouched whatever it is, and the call is idempotent.  Repair of empty or
unparsable (not non-object) content is done only by
`initialize_shared_memory`. -/
theorem c5_ensure_exists_idempotent :
    (∀ st, ∃ s, ensure_memory_file st = .content s) ∧
    (ensure_memory_file .absent = .content "{}" ∧ parseJson "{}" = some (.obj [])) ∧
    (∀ st, ensure_memory_file (ensure_memory_file st) = ensure_memory_file st) ∧
    (∀ s, ensure_memory_file (.content s) = .content s) ∧
    (∀ s, parseJson (pyStrip s) = none →
      initialize_shared_memory (.content s) = .content "{}") := by
  refine ⟨?_, by decide, ?_, fun s => rfl, ?_⟩
  · intro st
    cases st with
    | absent => exact ⟨"{}", rfl⟩
    | content s => exact ⟨s, rfl⟩
  · intro st
    cases st <;> rfl
  · intro s h
    by_cases hstrip : pyStrip s = ""
    · simp [initialize_shared_memory, ensure_memory_file, hstrip]
    · simp [initialize_shared_memory, ensure_memory_file, hstrip, h]

/-- C5 (witness): the amended theorem's repair clause at `"garbage"`. -/
theorem c5_witness :
    initialize_shared_memory (.content "garbage") = .content "{}" :=
  c5_ensure_exists_idempotent.2.2.2.2 "garbage" (by decide)

theorem pipeline_id_data (r b : String) (t : Nat) :
    (pipeline_id r b t).data =
      "mock-pipeline-".data ++ ((replaceChar r '/' '-').data ++ ("-".data ++
        (b.data ++ ("-".data ++ natDigits t)))) := by
  simp [pipeline_id, String.data_append, List.append_assoc,
    show ∀ l : List Char, (String.mk l).data = l from fun _ => rfl]

theorem pipeline_id_inj (repo branch : String) {t₁ t₂ : Nat} (h : t₁ ≠ t₂) :
    pipeline_id repo branch t₁ ≠ pipeline_id repo branch t₂ := by
  intro he
  apply h
  have hd := congrArg String.data he
  rw [pipeline_id_data, pipeline_id_data] at hd
  have h1 := List.append_cancel_left hd
  have h2 := List.append_cancel_left h1
  have h3 := List.append_cancel_left h2
  have h4 := List.append_cancel_left h3
  have h5 := List.append_cancel_left h4
  exact natDigits_injective h5

/-- C6 (counterexample): the claim says the generated pipeline identifier is
formatted as a slug-safe string with the path separator replaced; the code
replaces `/` only inside the repo name, so with the ordinary branch name
`feature/x` the identifier still contains a `/`. -/
theorem c6_counterexample : '/' ∈ (pipeline_id "o/r" "feature/x" 100).data := by
  decide

/-- C6 (amended): the identifier is derived deterministically from the repo
(with every `/` replaced by `-`), the branch verbatim (not sanitized), and
the epoch second; two calls with the same repo and branch whose clock reads
differ (in particular, one second apart) produce distinct identifiers; the
returned payload is the JSON text whose `status` field is `"triggered"` and
whose `pipeline_id` field is that identifier. -/
theorem c6_pipeline (repo branch ptype iso : String) (t₁ t₂ : Nat) (h : t₁ ≠ t₂) :
    pipeline_id repo branch t₁ ≠ pipeline_id repo branch t₂ ∧
    (∀ c ∈ (replaceChar repo '/' '-').data, c ≠ '/') ∧
    parseJson (trigger_pipeline repo branch ptype t₁ iso) =
      some (.obj [("status", .str "triggered"),
        ("pipeline_id", .str (pipeline_id repo branch t₁)),
        ("repo", .str repo), ("branch", .str branch), ("type", .str ptype),
        ("triggered_at", .str (iso ++ "Z"))]) := by
  refine ⟨pipeline_id_inj repo branch h, ?_, ?_⟩
  · intro c hc
    simp only [replaceChar, List.mem_map] at hc
    obtain ⟨a, _, ha⟩ := hc
    subst ha
    by_cases ha' : a = '/' <;> simp [ha']
  · apply parseJson_dumps
    simp only [wfJson, wfMembers, Bool.and_eq_true]
    refine ⟨?_, by simp [wfJson, wfMembers]⟩
    simp only [keysOf, List.map_cons, List.map_nil]
    decide

/-- C6 (witness): two clock reads one second apart give distinct
identifiers. -/
theorem c6_witness :
    pipeline_id "benghita/PropertyValuation" "main" 1700000000 ≠
      pipeline_id "benghita/PropertyValuation" "main" 1700000001 :=
  (c6_pipeline "benghita/PropertyValuation" "main" "mock" "T"
    1700000000 1700000001 (by decide)).1

/-- C7: the path written by `create_report_file` is
`<dir>/<repo with '/' replaced by '_'>_<slug of the title, at most 80
characters>_<timestamp>.md`, and the file content is the title as a heading,
the generation-timestamp line, a blank line, then the body verbatim — in
particular it starts with `# ` followed by the unmodified title. -/
theorem c7_report_file (repo title body ts dir : String) :
    (create_report_file repo title body ts dir).1 =
      dir ++ "/" ++ (replaceChar repo '/' '_' ++ "_" ++ pySlugTitle title ++ "_" ++
        ts ++ ".md") ∧
    (pySlugTitle title).length ≤ 80 ∧
    (create_report_file repo title body ts dir).2.1 =
      "# " ++ title ++ "\n\n" ++ "_Generated: " ++ ts ++ "_\n\n" ++ body ∧
    (create_report_file repo title body ts dir).2.1 =
      "# " ++ (title ++ ("\n\n" ++ "_Generated: " ++ ts ++ "_\n\n" ++ body)) := by
  refine ⟨rfl, ?_, rfl, ?_⟩
  · show (pySlugTitle title).data.length ≤ 80
    simp [pySlugTitle]
  · show ("# " ++ title ++ "\n\n" ++ "_Generated: " ++ ts ++ "_\n\n" ++ body : String) = _
    simp [String.append_assoc]

/-- C8: reading a key that is absent from the stored mapping returns the
JSON text of `{key: null}` rather than raising. -/
theorem c8_read_missing_key (s : String) (m : List (String × Json)) (k : String)
    (hs : parseJson s = some (.obj m)) (hk : k ∉ keysOf m) :
    (read_shared_memory (.content s) (some k)).2 =
      .ok (json_dumps (.obj [(k, .null)])) := by
  rw [read_state_key s m k hs, dictGet_not_mem hk]

/-- C8 (witness): reading `"last_known_commit"` from the empty store. -/
theorem c8_witness :
    (read_shared_memory (.content "{}") (some "last_known_commit")).2 =
      .ok (json_dumps (.obj [("last_known_commit", .null)])) :=
  c8_read_missing_key "{}" [] "last_known_commit" (by decide) (by decide)

/-- C9: every public tool function returns its result as a string of JSON
text — whenever a call returns normally, the returned string parses as JSON
(`write`'s argument is a Python value, hence well formed). -/
theorem c9_tools_return_json_text :
    (∀ st key out, (read_shared_memory st key).2 = .ok out →
      (parseJson out).isSome = true) ∧
    (∀ st k v out, wfJson v = true → (write_shared_memory st k v).2 = .ok out →
      (parseJson out).isSome = true) ∧
    (∀ msg, (parseJson (validate_commit_message msg)).isSome = true) ∧
    (∀ repo branch ptype t iso,
      (parseJson (trigger_pipeline repo branch ptype t iso)).isSome = true) ∧
    (∀ repo title body ts dir,
      (parseJson ((create_report_file repo title body ts dir).2.2)).isSome = true) := by
  refine ⟨?_, ?_, ?_, ?_, ?_⟩
  · intro st key out h
    obtain ⟨s', hs'⟩ : ∃ s', ensure_memory_file st = .content s' := by
      cases st with
      | absent => exact ⟨"{}", rfl⟩
      | content s => exact ⟨s, rfl⟩
    cases hp : parseJson s' with
    | none => simp [read_shared_memory, hs', json_load, hp] at h
    | some data =>
        have hwd := parseJson_wf hp
        cases key with
        | none =>
            simp only [read_shared_memory, hs', json_load, hp] at h
            simp only [Except.ok.injEq] at h
            subst h
            rw [parseJson_dumps hwd]
            rfl
        | some k =>
            cases data with
            | obj mm =>
                simp only [read_shared_memory, hs', json_load, hp] at h
                simp only [Except.ok.injEq] at h
                subst h
                rw [parseJson_dumps (by
                  simp only [wfJson, wfMembers, Bool.and_eq_true]
                  exact ⟨rfl, by
                    simp [wfMembers, wfJson_dictGet k hwd]⟩)]
                rfl
            | null => simp [read_shared_memory, hs', json_load, hp] at h
            | bool b => simp [read_shared_memory, hs', json_load, hp] at h
            | num n => simp [read_shared_memory, hs', json_load, hp] at h
            | str s2 => simp [read_shared_memory, hs', json_load, hp] at h
            | arr xs => simp [read_shared_memory, hs', json_load, hp] at h
  · intro st k v out hv h
    obtain ⟨s', hs'⟩ : ∃ s', ensure_memory_file st = .content s' := by
      cases st with
      | absent => exact ⟨"{}", rfl⟩
      | content s => exact ⟨s, rfl⟩
    cases hp : parseJson s' with
    | none => simp [write_shared_memory, hs', json_load, hp] at h
    | some data =>
        cases data with
        | obj mm =>
            simp only [write_shared_memory, hs', json_load, hp] at h
            simp only [Except.ok.injEq] at h
            subst h
            rw [parseJson_dumps (by
              simp only [wfJson, wfMembers, Bool.and_eq_true]
              refine ⟨rfl, ?_⟩
              simp [wfMembers, wfJson, hv])]
            rfl
        | null => simp [write_shared_memory, hs', json_load, hp] at h
        | bool b => simp [write_shared_memory, hs', json_load, hp] at h
        | num n => simp [write_shared_memory, hs', json_load, hp] at h
        | str s2 => simp [write_shared_memory, hs', json_load, hp] at h
        | arr xs => simp [write_shared_memory, hs', json_load, hp] at h
  · intro msg
    by_cases hm : commitRegexMatches (pyStrip msg).data = true
    · simp only [validate_commit_message, if_pos hm]
      rw [parseJson_dumps (by decide)]
      rfl
    · simp only [validate_commit_message, if_neg hm]
      rw [parseJson_dumps (by decide)]
      rfl
  · intro repo branch ptype t iso
    have hp := (c6_pipeline repo branch ptype iso t (t + 1) (by omega)).2.2
    rw [hp]
    rfl
  · intro repo title body ts dir
    show (parseJson (json_dumps (.obj [("status", .str "written"),
      ("path", .str (dir ++ "/" ++ report_filename repo title ts))]))).isSome = true
    rw [parseJson_dumps (by
      simp only [wfJson, wfMembers, Bool.and_eq_true]
      exact ⟨rfl, by simp [wfMembers, wfJson]⟩)]
    rfl

/-- C9 (witness): a whole-store read of the empty store returns `"{}"`,
which parses; the validator's output on `"feat: x"` parses. -/
theorem c9_witness :
    (parseJson "{}").isSome = true ∧
    (parseJson (validate_commit_message "feat: x")).isSome = true :=
  ⟨c9_tools_return_json_text.1 (.content "{}") none "{}" (by decide),
    c9_tools_return_json_text.2.2.1 "feat: x"⟩

/-- C10: the slugification applies exactly lower-casing and space-to-hyphen
(positionally, under the 80-character cut), so any character that is neither
a space nor an upper-case letter — a path separator or a dot included — is
preserved at its position; consequently a title containing `/` and `..`
components makes `create_report_file` write to, and return, a path that
resolves outside the configured reports directory. -/
theorem c10_slug_preserves_separators :
    (∀ (title : String) (i : Nat), i < 80 →
      (pySlugTitle title).data[i]? =
        ((title.data[i]?).map Char.toLower).map (fun c => if c = ' ' then '-' else c)) ∧
    (∀ (title : String) (i : Nat) (c : Char), i < 80 → c.toLower = c → c ≠ ' ' →
      title.data[i]? = some c → (pySlugTitle title).data[i]? = some c) ∧
    ((create_report_file "o/r" "a/../../../x" "body" "TS" "data/reports").1 =
        "data/reports/o_r_a/../../../x_TS.md" ∧
      pointsUnder "data/reports/o_r_a/../../../x_TS.md" "data/reports" = false) := by
  have hbase : ∀ (title : String) (i : Nat), i < 80 →
      (pySlugTitle title).data[i]? =
        ((title.data[i]?).map Char.toLower).map (fun c => if c = ' ' then '-' else c) := by
    intro title i hi
    show (((title.data.map Char.toLower).map
      (fun c => if c = ' ' then '-' else c)).take 80)[i]? = _
    rw [List.getElem?_take_of_lt hi, List.getElem?_map, List.getElem?_map]
  refine ⟨hbase, ?_, by decide, by decide⟩
  intro title i c hi hlow hsp hc
  rw [hbase title i hi, hc]
  simp [hlow, hsp]

/-- C10 (witness): the preservation clause at the slash of `"a/b"` and the
dot of `"a.b"`. -/
theorem c10_witness :
    (pySlugTitle "a/b").data[1]? = some '/' ∧
    (pySlugTitle "a.b").data[1]? = some '.' := by
  constructor
  · exact c10_slug_preserves_separators.2.1 "a/b" 1 '/' (by decide) (by decide)
      (by decide) (by decide)
  · exact c10_slug_preserves_separators.2.1 "a.b" 1 '.' (by decide) (by decide)
      (by decide) (by decide)

end GitOps